import Mathlib

/-!
# Verification of the clawdbot Docker-CC core

Shallow embedding, in Lean 4, of the parts of the `docker-cc` subsystem that
the specification's testable properties talk about:

* the incremental stream parser (`src/agents/docker-cc/stream-parser.ts`),
* the durable container registry (`src/agents/docker-cc/registry.ts`),
* configuration validation and session-key slugification (`config.ts`),
* per-container health checks (`health.ts`),
* the result-waiting loop and result translation (`redis-client.ts`, `runner.ts`),
* the container pool manager (`pool-manager.ts`).

TypeScript strings are modelled as `List Char` where character-level scanning
matters (the parser, the slugifier) and as `String` elsewhere.  JavaScript
numbers are modelled as `Int` (all relevant quantities are integral except CPU
counts, modelled as `Rat`).  `Date.now()` and other ambient effects are passed
in as explicit parameters.  JavaScript `Map`/`Set` are modelled as association
lists / lists with the insertion-order update semantics of the originals.
-/

namespace DockerCC

/-! ## Stream parser (`stream-parser.ts`)

The TypeScript `StreamParser` keeps a rolling string `buffer`, a flag
`inJson`, a signed `braceCount` and a `scanPosition`.  `feed` appends the
chunk to the buffer and loops: when not inside a record it drops everything
before the first `'{'` (dropping the whole buffer when there is none); when
inside, it scans from `scanPosition` counting `'{'`/`'}'`, and when the count
returns to zero it slices the closed record off the front of the buffer,
tries to decode it (`JSON.parse`, emitting on success and discarding on
failure), and continues with the tail.  The decoder is abstracted as a
parameter `decode : List Char → Option α`. -/

structure ParserState where
  buffer : List Char
  inJson : Bool
  braceCount : Int
  scanPosition : Nat
deriving Repr, DecidableEq

/-- The fresh parser state (`new StreamParser()` / `reset()`). -/
def freshParser : ParserState := ⟨[], false, 0, 0⟩

/-- The inner for-loop of `feed`: scan `cs` (the buffer from `scanPosition`
on) updating the running brace count `bc`; `Sum.inl j` means the count
reached zero at relative index `j` (a closing brace), `Sum.inr bc'` means the
characters ran out with final count `bc'`. -/
def scanClose : List Char → Int → Sum Nat Int
  | [], bc => Sum.inr bc
  | c :: rest, bc =>
    if c = '{' then
      match scanClose rest (bc + 1) with
      | Sum.inl j => Sum.inl (j + 1)
      | Sum.inr b => Sum.inr b
    else if c = '}' then
      if bc - 1 = 0 then Sum.inl 0
      else
        match scanClose rest (bc - 1) with
        | Sum.inl j => Sum.inl (j + 1)
        | Sum.inr b => Sum.inr b
    else
      match scanClose rest bc with
      | Sum.inl j => Sum.inl (j + 1)
      | Sum.inr b => Sum.inr b

/-- `buffer.indexOf("{")` as an optional index. -/
def firstOpen : List Char → Option Nat
  | [] => none
  | c :: rest => if c = '{' then some 0 else (firstOpen rest).map (· + 1)

/-- One termination measure for the `feed` while-loop: every loop iteration
either consumes at least one character of the buffer or flips `inJson` from
`false` to `true` without growing the buffer. -/
def loopMeasure (s : ParserState) : Nat :=
  2 * s.buffer.length + (if s.inJson then 1 else 2)

/-- One iteration of the `feed` while-loop.  When the buffer is empty the
loop exits; when not inside a record it either drops a `'{'`-free buffer and
exits or aligns the buffer to the first opener and continues; when inside it
scans from `scanPosition`, either closing a record (slice, decode, emit,
continue on the tail) or recording the scan progress and exiting. -/
def feedStep (decode : List Char → Option α)
    (recur : ParserState → List α × ParserState) (s : ParserState) :
    List α × ParserState :=
  if s.buffer = [] then ([], s)
  else if s.inJson = true then
    match scanClose (s.buffer.drop s.scanPosition) s.braceCount with
    | Sum.inr bc => ([], ⟨s.buffer, true, bc, s.buffer.length⟩)
    | Sum.inl j =>
      let record := s.buffer.take (s.scanPosition + j + 1)
      let rest := s.buffer.drop (s.scanPosition + j + 1)
      let out := recur ⟨rest, false, 0, 0⟩
      ((decode record).toList ++ out.1, out.2)
  else
    match firstOpen s.buffer with
    | none => ([], ⟨[], false, s.braceCount, 0⟩)
    | some idx => recur ⟨s.buffer.drop idx, true, 0, 0⟩

/-- The `feed` while-loop, with explicit fuel so that the definition is
structurally recursive (hence computable by `decide`/`rfl`).  `feedLoop`
below supplies sufficient fuel; `feedLoopF_irrel` shows the fuel does not
matter once sufficient. -/
def feedLoopF (decode : List Char → Option α) : Nat → ParserState → List α × ParserState
  | 0, s => ([], s)
  | n + 1, s => feedStep decode (feedLoopF decode n) s

/-- The `feed` while-loop with sufficient fuel. -/
def feedLoop (decode : List Char → Option α) (s : ParserState) : List α × ParserState :=
  feedLoopF decode (loopMeasure s + 1) s

/-- Append a chunk to the buffered state (the `this.buffer += data` step). -/
def appendData (s : ParserState) (data : List Char) : ParserState :=
  ⟨s.buffer ++ data, s.inJson, s.braceCount, s.scanPosition⟩

/-- `StreamParser.feed`: append the chunk, then run the while-loop.  Returns
the emitted records and the post-call parser state. -/
def feed (decode : List Char → Option α) (s : ParserState) (data : List Char) :
    List α × ParserState :=
  feedLoop decode (appendData s data)

/-- Feed a sequence of chunks to the parser in order, accumulating outputs. -/
def feedMany (decode : List Char → Option α) (s : ParserState) :
    List (List Char) → List α × ParserState
  | [] => ([], s)
  | c :: cs =>
    let r := feed decode s c
    let rest := feedMany decode r.2 cs
    (r.1 ++ rest.1, rest.2)

/-- Number of `'{'` minus number of `'}'`. -/
def braceDelta (cs : List Char) : Int :=
  (cs.count '{' : Int) - (cs.count '}' : Int)

/-- A raw record in the sense of the brace-counting scanner: it starts with
`'{'`, its braces balance overall, and no proper non-empty prefix balances
(so the scanner closes it exactly at its last character). -/
def IsRawRecord (r : List Char) : Prop :=
  r.head? = some '{' ∧ braceDelta r = 0 ∧
    ∀ k, k < r.length → 0 < k → 0 < braceDelta (r.take k)

/-- Noise the parser skips: contains no record opener. -/
def NoOpen (cs : List Char) : Prop := ¬ '{' ∈ cs

instance : DecidablePred NoOpen := fun cs => by
  unfold NoOpen; infer_instance

instance (r : List Char) : Decidable (IsRawRecord r) := by
  unfold IsRawRecord
  infer_instance

/-! ## Registry (`registry.ts`)

The registry is a JSON document `{version, entries}` on disk; every operation
is a read-modify-write of the entry list.  We model the entry list directly
and each operation as a pure function on it; `Date.now()` is an explicit
`now` parameter.  TypeScript `entry.field = v` on the object returned by
`find` mutates the first matching element in place, modelled by
`updateFirst`. -/

inductive ContainerStatus
  | creating | starting | idle | running | stopping | stopped | failed
deriving Repr, DecidableEq

structure ContainerRegistryEntry where
  containerId : String
  containerName : String
  sessionKey : Option String
  agentId : Option String
  status : ContainerStatus
  createdAt : Int
  lastHeartbeat : Int
  claudeSessionId : Option String
  turnCount : Int
  configHash : String
deriving Repr, DecidableEq

/-- Apply `f` to the first element satisfying `p`, leave the rest alone
(`registry.entries.find(...)` followed by in-place mutation). -/
def updateFirst (p : α → Bool) (f : α → α) : List α → List α
  | [] => []
  | x :: rest => if p x then f x :: rest else x :: updateFirst p f rest

/-- `getContainerEntry`: first entry with the given name. -/
def findEntry (reg : List ContainerRegistryEntry) (containerName : String) :
    Option ContainerRegistryEntry :=
  reg.find? (fun e => e.containerName == containerName)

/-- `getContainerBySessionKey`. -/
def getContainerBySessionKey (reg : List ContainerRegistryEntry) (sessionKey : String) :
    Option ContainerRegistryEntry :=
  reg.find? (fun e => e.sessionKey == some sessionKey)

/-- `updateContainerEntry`: replace the entry with the same name, or push. -/
def updateContainerEntry (reg : List ContainerRegistryEntry) (entry : ContainerRegistryEntry) :
    List ContainerRegistryEntry :=
  if reg.any (fun e => e.containerName == entry.containerName) then
    updateFirst (fun e => e.containerName == entry.containerName) (fun _ => entry) reg
  else reg ++ [entry]

/-- `removeContainerEntry`. -/
def removeContainerEntry (reg : List ContainerRegistryEntry) (containerName : String) :
    List ContainerRegistryEntry :=
  reg.filter (fun e => !(e.containerName == containerName))

/-- `listContainersByAgent` (strict `===` comparison: an entry with no agent
id never matches). -/
def listContainersByAgent (reg : List ContainerRegistryEntry) (agentId : String) :
    List ContainerRegistryEntry :=
  reg.filter (fun e => e.agentId == some agentId)

/-- `listWarmContainers`: `sessionKey === null && status === "idle"`. -/
def listWarmContainers (reg : List ContainerRegistryEntry) : List ContainerRegistryEntry :=
  reg.filter (fun e => e.sessionKey == none && e.status == ContainerStatus.idle)

/-- `updateContainerStatus` (no-op when the name is absent). -/
def updateContainerStatus (reg : List ContainerRegistryEntry) (containerName : String)
    (status : ContainerStatus) (now : Int) : List ContainerRegistryEntry :=
  updateFirst (fun e => e.containerName == containerName)
    (fun e => { e with status := status, lastHeartbeat := now }) reg

/-- `updateContainerHeartbeat`: bumps the heartbeat and overwrites
`claudeSessionId` / `turnCount` only when the optional arguments are
supplied. -/
def updateContainerHeartbeat (reg : List ContainerRegistryEntry) (containerName : String)
    (claudeSessionId : Option String) (turnCount : Option Int) (now : Int) :
    List ContainerRegistryEntry :=
  updateFirst (fun e => e.containerName == containerName)
    (fun e =>
      { e with
        lastHeartbeat := now
        claudeSessionId := match claudeSessionId with
          | some c => some c
          | none => e.claudeSessionId
        turnCount := match turnCount with
          | some t => t
          | none => e.turnCount }) reg

/-- `assignContainerToSession`: sets the session key, overwrites the agent id
(with `undefined` when absent) and bumps the heartbeat. -/
def assignContainerToSession (reg : List ContainerRegistryEntry) (containerName : String)
    (sessionKey : String) (agentId : Option String) (now : Int) :
    List ContainerRegistryEntry :=
  updateFirst (fun e => e.containerName == containerName)
    (fun e => { e with sessionKey := some sessionKey, agentId := agentId, lastHeartbeat := now })
    reg

/-- `unassignContainer`: clears session key, agent id, resumable Claude
session id and turn count, sets status idle, bumps the heartbeat. -/
def unassignContainer (reg : List ContainerRegistryEntry) (containerName : String) (now : Int) :
    List ContainerRegistryEntry :=
  updateFirst (fun e => e.containerName == containerName)
    (fun e =>
      { e with
        sessionKey := none
        agentId := none
        claudeSessionId := none
        turnCount := 0
        status := ContainerStatus.idle
        lastHeartbeat := now }) reg

/-- `getIdleContainers`. -/
def getIdleContainers (reg : List ContainerRegistryEntry) (idleTimeoutMs now : Int) :
    List ContainerRegistryEntry :=
  reg.filter (fun e =>
    e.status == ContainerStatus.idle && decide (now - e.lastHeartbeat > idleTimeoutMs))

/-- `getExpiredContainers`. -/
def getExpiredContainers (reg : List ContainerRegistryEntry) (maxAgeMs now : Int) :
    List ContainerRegistryEntry :=
  reg.filter (fun e => decide (now - e.createdAt > maxAgeMs))

/-- `getStaleContainers`: only running/idle entries are considered. -/
def getStaleContainers (reg : List ContainerRegistryEntry) (staleThresholdMs now : Int) :
    List ContainerRegistryEntry :=
  reg.filter (fun e =>
    (e.status == ContainerStatus.running || e.status == ContainerStatus.idle) &&
      decide (now - e.lastHeartbeat > staleThresholdMs))

/-- `syncWithDocker`: keep only entries whose container still exists; return
the removed names. -/
def syncWithDocker (reg : List ContainerRegistryEntry) (existingContainerNames : List String) :
    List ContainerRegistryEntry × List String :=
  (reg.filter (fun e => existingContainerNames.contains e.containerName),
   (reg.filter (fun e => !(existingContainerNames.contains e.containerName))).map
     (·.containerName))

/-! ## Configuration (`config.ts`)

JavaScript numbers are modelled as `Int` for the integral fields and `Rat`
for the CPU count. -/

structure PoolSizing where
  minWarm : Int
  maxTotal : Int
  maxPerAgent : Int
deriving Repr, DecidableEq

structure ResourceLimits where
  memory : String
  cpus : Rat
  pidsLimit : Int
deriving Repr, DecidableEq

structure TimeoutConfig where
  idleMs : Int
  maxAgeMs : Int
  healthIntervalMs : Int
  startupMs : Int
deriving Repr, DecidableEq

structure RedisConfig where
  url : Option String
  keyPrefix : String
deriving Repr, DecidableEq

structure DockerConfig where
  containerPrefix : String
  network : String
  capDrop : List String
  securityOpts : List String
  binds : Option (List String)
  env : Option (List (String × String))
deriving Repr, DecidableEq

structure DockerCCPoolConfig where
  enabled : Bool
  pool : PoolSizing
  image : String
  resources : ResourceLimits
  timeouts : TimeoutConfig
  redis : RedisConfig
  docker : DockerConfig
deriving Repr, DecidableEq

structure ValidationResult where
  valid : Bool
  errors : List String
deriving Repr, DecidableEq

/-- `validateDockerCCConfig`: accumulates error strings, `valid` iff none.
`!config.image` is string falsiness (empty string). -/
def validateDockerCCConfig (config : DockerCCPoolConfig) : ValidationResult :=
  let errors : List String :=
    (if config.pool.minWarm < 0 then ["pool.minWarm must be non-negative"] else []) ++
    (if config.pool.maxTotal < 1 then ["pool.maxTotal must be at least 1"] else []) ++
    (if config.pool.minWarm > config.pool.maxTotal then
      ["pool.minWarm cannot exceed pool.maxTotal"] else []) ++
    (if config.pool.maxPerAgent < 1 then ["pool.maxPerAgent must be at least 1"] else []) ++
    (if config.image = "" then ["image is required"] else []) ++
    (if config.resources.cpus < (1 : Rat) / 10 then
      ["resources.cpus must be at least 0.1"] else []) ++
    (if config.resources.pidsLimit < 10 then
      ["resources.pidsLimit must be at least 10"] else []) ++
    (if config.timeouts.healthIntervalMs < 1000 then
      ["timeouts.healthIntervalMs must be at least 1000ms"] else []) ++
    (if config.timeouts.startupMs < 5000 then
      ["timeouts.startupMs must be at least 5000ms"] else [])
  ⟨errors.isEmpty, errors⟩

/-! ## Session-key slugification (`config.ts`, `slugifySessionKey`)

`String.prototype.toLowerCase` is modelled on its ASCII fragment: every
non-ASCII character (uppercase or lowercase, before or after case mapping)
falls outside `[a-z0-9]` and is replaced by a dash either way, so the slug is
unaffected.  `charCodeAt` is UTF-16, so characters beyond the BMP contribute
two surrogate code units to the hash. -/

/-- ASCII fragment of `toLowerCase`. -/
def jsToLower (c : Char) : Char :=
  if 'A' ≤ c ∧ c ≤ 'Z' then Char.ofNat (c.toNat + 32) else c

/-- One step of `.replace(/[^a-z0-9]/g, "-")`. -/
def dashify (c : Char) : Char :=
  if ('a' ≤ c ∧ c ≤ 'z') ∨ ('0' ≤ c ∧ c ≤ '9') then c else '-'

/-- The dash-run collapsing replace: every maximal run of dashes becomes a
single dash. -/
def collapseDashes : List Char → List Char
  | [] => []
  | c :: rest =>
    if c = '-' ∧ (collapseDashes rest).head? = some '-' then collapseDashes rest
    else c :: collapseDashes rest

/-- Remove a single leading dash (the `^-` alternative of `/^-|-$/g`). -/
def stripLeadDash (l : List Char) : List Char :=
  match l with
  | c :: rest => if c = '-' then rest else l
  | [] => []

/-- Remove a single trailing dash (the `-$` alternative of `/^-|-$/g`). -/
def stripTrailDash (l : List Char) : List Char :=
  (stripLeadDash l.reverse).reverse

/-- The slug part of `slugifySessionKey`: lowercase, dashify, collapse,
strip one leading and one trailing dash, `slice(0, 32)`. -/
def sourceSlug (key : List Char) : List Char :=
  (stripTrailDash (stripLeadDash (collapseDashes ((key.map jsToLower).map dashify)))).take 32

/-- UTF-16 code units of one character (`charCodeAt`). -/
def utf16CodeUnits (c : Char) : List Nat :=
  let n := c.toNat
  if n < 65536 then [n]
  else [55296 + (n - 65536) / 1024, 56320 + (n - 65536) % 1024]

/-- All UTF-16 code units of a string. -/
def stringCodeUnits (s : List Char) : List Nat :=
  (s.map utf16CodeUnits).flatten

/-- Wrap an integer to a 32-bit two's-complement value (the effect of
JavaScript's `<<` and `&` on a number). -/
def toInt32 (n : Int) : Int :=
  if n % 4294967296 < 2147483648 then n % 4294967296
  else n % 4294967296 - 4294967296

/-- One iteration of `simpleHash`: `hash = (hash << 5) - hash + char;
hash = hash & hash`. -/
def simpleHashStep (h : Int) (c : Nat) : Int :=
  toInt32 (toInt32 (h * 32) - h + c)

/-- `simpleHash`: fold the step over the code units, then `Math.abs`. -/
def simpleHash (s : List Char) : Nat :=
  ((stringCodeUnits s).foldl simpleHashStep 0).natAbs

/-- Lower-case hexadecimal digit. -/
def hexDigitChar (n : Nat) : Char :=
  if n < 10 then Char.ofNat (48 + n) else Char.ofNat (97 + (n - 10))

/-- Hex digits of `n` (most significant first); fuel-structural, 9 digits
suffice for every 32-bit magnitude. -/
def natToHexAux : Nat → Nat → List Char
  | 0, _ => []
  | fuel + 1, n => if n = 0 then [] else natToHexAux fuel (n / 16) ++ [hexDigitChar (n % 16)]

/-- `n.toString(16)` for natural `n`. -/
def natToHex (n : Nat) : List Char :=
  if n = 0 then ['0'] else natToHexAux 9 n

/-- The fingerprint suffix: `simpleHash(sessionKey).toString(16).slice(0, 8)`. -/
def hashSuffix (key : List Char) : List Char :=
  (natToHex (simpleHash key)).take 8

/-- The sixteen lower-case hexadecimal digits. -/
def hexChars : List Char :=
  (List.range 16).map hexDigitChar

/-- Two adjacent characters are not both dashes (the shape of
`collapseDashes` output). -/
def noDashPair (a b : Char) : Prop := ¬(a = '-' ∧ b = '-')

/-- `slugifySessionKey`: the slug, a dash, and the fingerprint. -/
def slugifySessionKey (key : List Char) : List Char :=
  sourceSlug key ++ '-' :: hashSuffix key

/-- Modelled from the spec's words ("lowercasing, replacing non-alphanumerics
with a single dash, stripping leading/trailing dashes, truncating to 32
characters"): the same pipeline but stripping *all* leading and trailing
dashes.  `slugify_spec_slug` shows the source slug refines this. -/
def specSlug (key : List Char) : List Char :=
  let collapsed := collapseDashes ((key.map jsToLower).map dashify)
  let led := collapsed.dropWhile (· = '-')
  ((led.reverse.dropWhile (· = '-')).reverse).take 32

/-! ## Per-container health (`health.ts`, `DockerCCHealthMonitor.checkContainer`)

The Redis state record is modelled as fetched (`getSessionState` result);
`lastHeartbeat` is the parsed epoch-milliseconds of the ISO timestamp,
`none` when the field is absent or empty (string falsiness).  The
no-redis-client early return of `checkContainer` produces the same record as
the missing-state branch and is subsumed by passing `none`. -/

structure ContainerHealthStatus where
  sessionId : String
  status : ContainerStatus
  lastHeartbeat : Option Int
  claudeSessionId : Option String
  turnCount : Int
deriving Repr, DecidableEq

structure ContainerHealthCheckResult where
  healthy : Bool
  status : Option ContainerHealthStatus
  lastHeartbeatAgeMs : Option Int
  isStale : Bool
deriving Repr, DecidableEq

/-- `checkContainer`, given the fetched state record and the current time. -/
def checkContainer (healthIntervalMs now : Int) (state : Option ContainerHealthStatus) :
    ContainerHealthCheckResult :=
  match state with
  | none => ⟨false, none, none, true⟩
  | some st =>
    let lastHeartbeatAgeMs : Option Int := st.lastHeartbeat.map (fun t => now - t)
    let staleThreshold := healthIntervalMs * 3
    let isStale : Bool :=
      match lastHeartbeatAgeMs with
      | none => false
      | some a => decide (a > staleThreshold)
    let healthy : Bool :=
      (st.status == ContainerStatus.idle || st.status == ContainerStatus.running) && !isStale
    ⟨healthy, some st, lastHeartbeatAgeMs, isStale⟩

/-! ## Result waiting and translation (`redis-client.ts`, `runner.ts`)

`waitForResult` polls the result key and the state record every 500 ms until
the deadline.  We model the sequence of observations the loop makes before
the deadline as a list; the empty tail is the deadline expiring. -/

structure TokenUsage where
  input_tokens : Int
  output_tokens : Int
deriving Repr, DecidableEq

structure ResultData where
  subtype : String
  result : String
  usage : TokenUsage
  duration_ms : Option Int
deriving Repr, DecidableEq

/-- One iteration's observations: the result key, the state record, and the
result key as re-read after a terminal state is seen. -/
structure PollObservation where
  result : Option ResultData
  state : Option ContainerHealthStatus
  resultAfterTerminal : Option ResultData
deriving Repr, DecidableEq

/-- `DockerCCRedisClient.waitForResult`: return the first result seen; on a
terminal (`stopped`/`failed`) state, re-read and return the result key as is;
when the observations run out (deadline), return `none`. -/
def waitForResult : List PollObservation → Option ResultData
  | [] => none
  | p :: rest =>
    match p.result with
    | some r => some r
    | none =>
      if p.state.map (·.status) = some ContainerStatus.stopped ∨
          p.state.map (·.status) = some ContainerStatus.failed then
        p.resultAfterTerminal
      else waitForResult rest

structure ClaudeRunResult where
  result : Option String
  usage : TokenUsage
  duration_ms : Int
  exit_code : Int
  claudeSessionId : Option String
deriving Repr, DecidableEq

/-- The result translation in `DockerCCRunner.run` after `waitForResult`:
null result and zero-filled usage when no result data, exit code 1 exactly
for an `error` subtype, resumable session id attached when the state record
carries a truthy one. -/
def buildRunResult (resultData : Option ResultData) (stateClaudeSessionId : Option String) :
    ClaudeRunResult :=
  { result := resultData.map (·.result)
    usage := (resultData.map (·.usage)).getD ⟨0, 0⟩
    duration_ms := (resultData.bind (·.duration_ms)).getD 0
    exit_code := if resultData.map (·.subtype) = some "error" then 1 else 0
    claudeSessionId :=
      match stateClaudeSessionId with
      | some c => if c = "" then none else some c
      | none => none }

/-! ## Pool manager (`pool-manager.ts`)

The in-memory `PoolState` holds a `Map` of containers by name, a `Map` from
session key to container name and a `Set` of warm container names; they are
modelled as association lists / lists with JavaScript's update-in-place /
append-if-new semantics.  Docker is an oracle `String → RuntimeState`;
`createAndStartContainer` results are passed in (`none` models a creation
failure).  The fire-and-forget `void this.ensureWarmPool()` inside
`getContainer` runs concurrently and is not part of the call's own effect on
the state. -/

structure RuntimeState where
  present : Bool
  running : Bool
deriving Repr, DecidableEq

structure PoolState where
  containers : List (String × ContainerRegistryEntry)
  sessionToContainer : List (String × String)
  warmPool : List String
deriving Repr, DecidableEq

/-- `Map.get`. -/
def mapGet (m : List (String × β)) (k : String) : Option β :=
  (m.find? (fun p => p.1 == k)).map (·.2)

/-- `Map.set`: overwrite in place, else append. -/
def mapSet : List (String × β) → String → β → List (String × β)
  | [], k, v => [(k, v)]
  | p :: rest, k, v => if p.1 = k then (k, v) :: rest else p :: mapSet rest k v

/-- `Map.delete`. -/
def mapDelete (m : List (String × β)) (k : String) : List (String × β) :=
  m.filter (fun p => !(p.1 == k))

/-- `Set.add`. -/
def setAdd (l : List String) (x : String) : List String :=
  if x ∈ l then l else l ++ [x]

/-- `Set.delete`. -/
def setDelete (l : List String) (x : String) : List String :=
  l.filter (fun y => !(y == x))

structure ContainerAssignment where
  containerName : String
  containerId : String
  isNew : Bool
  wasWarm : Bool
deriving Repr, DecidableEq

inductive PoolError
  | maxPerAgentReached
  | maxTotalReached
  | creationFailed
deriving Repr, DecidableEq

structure GetContainerParams where
  sessionKey : String
  agentId : Option String
  workspaceDir : String
deriving Repr, DecidableEq

/-- Steps 3–5 of `DockerCCPoolManager.getContainer`: enforce the caps,
assign the first warm registry entry, or create a new container
(`createResult` is the `createAndStartContainer` outcome). -/
def getContainerTail (cfg : DockerCCPoolConfig)
    (createResult : Option (String × String)) (now : Int)
    (st : PoolState) (reg : List ContainerRegistryEntry) (p : GetContainerParams) :
    Except PoolError (ContainerAssignment × PoolState × List ContainerRegistryEntry) :=
  -- Step 3: caps.
  if ((listContainersByAgent reg (p.agentId.getD "")).length : Int) ≥ cfg.pool.maxPerAgent
  then .error .maxPerAgentReached
  else if (reg.length : Int) ≥ cfg.pool.maxTotal then .error .maxTotalReached
  else
    -- Step 4: first warm registry entry.
    match (listWarmContainers reg).head? with
    | some warm =>
      let entry' := { warm with sessionKey := some p.sessionKey, agentId := p.agentId }
      .ok (⟨warm.containerName, warm.containerId, false, true⟩,
        { containers := mapSet st.containers warm.containerName entry'
          sessionToContainer := mapSet st.sessionToContainer p.sessionKey warm.containerName
          warmPool := setDelete st.warmPool warm.containerName },
        assignContainerToSession reg warm.containerName p.sessionKey p.agentId now)
    | none =>
      -- Step 5: create and start a new container.
      match createResult with
      | none => .error .creationFailed
      | some (cid, cname) =>
        let entry : ContainerRegistryEntry :=
          ⟨cid, cname, some p.sessionKey, p.agentId, .idle, now, now, none, 0, ""⟩
        .ok (⟨cname, cid, true, false⟩,
          { st with
            containers := mapSet st.containers cname entry
            sessionToContainer := mapSet st.sessionToContainer p.sessionKey cname },
          updateContainerEntry reg entry)

/-- `DockerCCPoolManager.getContainer`.  Step 1 returns a cached assignment
from the in-memory maps; step 2 adopts a running container found in the
registry; steps 3–5 are `getContainerTail`. -/
def getContainer (cfg : DockerCCPoolConfig) (docker : String → RuntimeState)
    (createResult : Option (String × String)) (now : Int)
    (st : PoolState) (reg : List ContainerRegistryEntry) (p : GetContainerParams) :
    Except PoolError (ContainerAssignment × PoolState × List ContainerRegistryEntry) :=
  -- Step 1: in-memory session map (`if (existingName)` is string truthiness).
  let step1 : Option ContainerAssignment :=
    match mapGet st.sessionToContainer p.sessionKey with
    | some existingName =>
      if existingName = "" then none
      else
        match mapGet st.containers existingName with
        | some entry => some ⟨existingName, entry.containerId, false, false⟩
        | none => none
    | none => none
  match step1 with
  | some a => .ok (a, st, reg)
  | none =>
    -- Step 2: registry lookup, adopted only when the runtime says running.
    let adopted : Option ContainerRegistryEntry :=
      match getContainerBySessionKey reg p.sessionKey with
      | some re =>
        if (docker re.containerName).present ∧ (docker re.containerName).running then some re
        else none
      | none => none
    match adopted with
    | some re =>
      .ok (⟨re.containerName, re.containerId, false, false⟩,
        { st with
          containers := mapSet st.containers re.containerName re
          sessionToContainer := mapSet st.sessionToContainer p.sessionKey re.containerName },
        reg)
    | none => getContainerTail cfg createResult now st reg p

/-- `DockerCCPoolManager.releaseContainer`. -/
def releaseContainer (cfg : DockerCCPoolConfig) (now : Int)
    (st : PoolState) (reg : List ContainerRegistryEntry)
    (sessionKey : String) (returnToPool : Bool) :
    PoolState × List ContainerRegistryEntry :=
  match mapGet st.sessionToContainer sessionKey with
  | none => (st, reg)
  | some containerName =>
    if containerName = "" then (st, reg)
    else
      let st1 := { st with sessionToContainer := mapDelete st.sessionToContainer sessionKey }
      if returnToPool ∧ (st1.warmPool.length : Int) < cfg.pool.minWarm then
        let containers' :=
          match mapGet st1.containers containerName with
          | some e =>
            mapSet st1.containers containerName
              { e with sessionKey := none, agentId := none, status := .idle }
          | none => st1.containers
        ({ containers := containers'
           sessionToContainer := st1.sessionToContainer
           warmPool := setAdd st1.warmPool containerName },
         unassignContainer reg containerName now)
      else
        ({ st1 with containers := mapDelete st1.containers containerName },
         removeContainerEntry reg containerName)

/-- `DockerCCPoolManager.removeContainerByName` (runtime stop/remove are
external effects). -/
def removeContainerByName (st : PoolState) (reg : List ContainerRegistryEntry)
    (containerName : String) : PoolState × List ContainerRegistryEntry :=
  let st1 :=
    match mapGet st.containers containerName with
    | some e =>
      match e.sessionKey with
      | some k =>
        if k = "" then st
        else { st with sessionToContainer := mapDelete st.sessionToContainer k }
      | none => st
    | none => st
  ({ containers := mapDelete st1.containers containerName
     sessionToContainer := st1.sessionToContainer
     warmPool := setDelete st1.warmPool containerName },
   removeContainerEntry reg containerName)

/-- One iteration of the rebuild loop of `syncState`: enter the entry into
the container map and into either the session map (truthy session key) or,
if idle, the warm pool. -/
def rebuildStep (st : PoolState) (e : ContainerRegistryEntry) : PoolState :=
  let st1 := { st with containers := mapSet st.containers e.containerName e }
  match e.sessionKey with
  | some k =>
    if k = "" then
      if e.status = .idle then { st1 with warmPool := setAdd st1.warmPool e.containerName }
      else st1
    else { st1 with sessionToContainer := mapSet st1.sessionToContainer k e.containerName }
  | none =>
    if e.status = .idle then { st1 with warmPool := setAdd st1.warmPool e.containerName }
    else st1

/-- The rebuild loop of `syncState`. -/
def rebuildFromEntries (entries : List ContainerRegistryEntry) : PoolState :=
  entries.foldl rebuildStep ⟨[], [], []⟩

/-- The session-map pair contributed by one registry entry during the
rebuild (truthy session keys only). -/
def sessPair (e : ContainerRegistryEntry) : Option (String × String) :=
  match e.sessionKey with
  | some k => if k = "" then none else some (k, e.containerName)
  | none => none

/-- Whether the rebuild loop classifies an entry as warm: falsy session key
and idle status. -/
def warmPred (e : ContainerRegistryEntry) : Bool :=
  (match e.sessionKey with
   | some k => k == ""
   | none => true) && e.status == ContainerStatus.idle

/-- `DockerCCPoolManager.syncState`: reconcile the registry against the
runtime's container names, then rebuild the in-memory maps from scratch. -/
def syncState (dockerNames : List String) (reg : List ContainerRegistryEntry) :
    PoolState × List ContainerRegistryEntry :=
  let reg' := (syncWithDocker reg dockerNames).1
  (rebuildFromEntries reg', reg')

/-- One iteration of the health tick over a stale registry entry: destroy
the container if the runtime says gone or not running, else mark it failed
in the registry and sever its session mapping. -/
def checkHealthStep (docker : String → RuntimeState) (now : Int)
    (acc : PoolState × List ContainerRegistryEntry) (c : ContainerRegistryEntry) :
    PoolState × List ContainerRegistryEntry :=
  if (docker c.containerName).present = false ∨ (docker c.containerName).running = false then
    removeContainerByName acc.1 acc.2 c.containerName
  else
    (match c.sessionKey with
     | some k =>
       if k = "" then acc.1
       else { acc.1 with sessionToContainer := mapDelete acc.1.sessionToContainer k }
     | none => acc.1,
     updateContainerStatus acc.2 c.containerName ContainerStatus.failed now)

/-- `DockerCCPoolManager.checkHealth` (the body of the health tick). -/
def checkHealth (cfg : DockerCCPoolConfig) (docker : String → RuntimeState) (now : Int)
    (st : PoolState) (reg : List ContainerRegistryEntry) :
    PoolState × List ContainerRegistryEntry :=
  (getStaleContainers reg (cfg.timeouts.healthIntervalMs * 6) now).foldl
    (checkHealthStep docker now) (st, reg)

/-- `DockerCCPoolManager.createWarmContainer`; `create` is the
`createAndStartContainer` outcome, `none` a caught creation failure. -/
def createWarmContainer (create : Option (String × String)) (now : Int)
    (st : PoolState) (reg : List ContainerRegistryEntry) :
    PoolState × List ContainerRegistryEntry :=
  match create with
  | none => (st, reg)
  | some (cid, cname) =>
    let entry : ContainerRegistryEntry := ⟨cid, cname, none, none, .idle, now, now, none, 0, ""⟩
    ({ containers := mapSet st.containers cname entry
       sessionToContainer := st.sessionToContainer
       warmPool := setAdd st.warmPool cname },
     updateContainerEntry reg entry)

/-- The creation loop of `ensureWarmPool`: `n` sequential calls to
`createWarmContainer`, the `i`-th with outcome `creates i`. -/
def warmFold (creates : Nat → Option (String × String)) (now : Int) (n : Nat)
    (acc : PoolState × List ContainerRegistryEntry) :
    PoolState × List ContainerRegistryEntry :=
  (List.range n).foldl (fun acc i => createWarmContainer (creates i) now acc.1 acc.2) acc

/-- `DockerCCPoolManager.ensureWarmPool`: create `min(minWarm − |warm|,
maxTotal − |containers|)` warm containers in sequence. -/
def ensureWarmPool (cfg : DockerCCPoolConfig) (creates : Nat → Option (String × String))
    (now : Int) (st : PoolState) (reg : List ContainerRegistryEntry) :
    PoolState × List ContainerRegistryEntry :=
  let needed := cfg.pool.minWarm - (st.warmPool.length : Int)
  if needed ≤ 0 then (st, reg)
  else
    let canCreate := min needed (cfg.pool.maxTotal - (st.containers.length : Int))
    warmFold creates now canCreate.toNat (st, reg)

/-- A sequence of `removeContainerByName` calls, one per listed entry. -/
def removalsFold (l : List ContainerRegistryEntry)
    (acc : PoolState × List ContainerRegistryEntry) :
    PoolState × List ContainerRegistryEntry :=
  l.foldl (fun acc c => removeContainerByName acc.1 acc.2 c.containerName) acc

/-- `DockerCCPoolManager.maintenance`: destroy idle containers beyond the
warm-pool need (oldest heartbeat first), destroy everything past max age,
then top up the warm pool. -/
def maintenance (cfg : DockerCCPoolConfig) (creates : Nat → Option (String × String))
    (now : Int) (st : PoolState) (reg : List ContainerRegistryEntry) :
    PoolState × List ContainerRegistryEntry :=
  let idle := getIdleContainers reg cfg.timeouts.idleMs now
  let keepWarm := (max 0 (cfg.pool.minWarm - (st.warmPool.length : Int))).toNat
  let sorted := idle.mergeSort (fun a b => a.lastHeartbeat ≤ b.lastHeartbeat)
  let toRemove := sorted.drop keepWarm
  let acc1 := removalsFold toRemove (st, reg)
  let expired := getExpiredContainers acc1.2 cfg.timeouts.maxAgeMs now
  let acc2 := removalsFold expired acc1
  ensureWarmPool cfg creates now acc2.1 acc2.2

/-- `DockerCCPoolManager.shutdown`: remove every tracked registry entry and
clear the in-memory maps. -/
def poolShutdown (st : PoolState) (reg : List ContainerRegistryEntry) :
    PoolState × List ContainerRegistryEntry :=
  (⟨[], [], []⟩, st.containers.foldl (fun r p => removeContainerEntry r p.1) reg)

/-! ### The pool invariant of the specification -/

/-- "Mapped from its session key": the entry's session key maps back to this
container in the session-to-container map. -/
def sessionMapped (st : PoolState) (name : String) (e : ContainerRegistryEntry) : Prop :=
  match e.sessionKey with
  | some k => mapGet st.sessionToContainer k = some name
  | none => False

instance (st : PoolState) (name : String) (e : ContainerRegistryEntry) :
    Decidable (sessionMapped st name e) :=
  match h : e.sessionKey with
  | some k =>
    decidable_of_iff (mapGet st.sessionToContainer k = some name) (by simp [sessionMapped, h])
  | none => isFalse (by simp [sessionMapped, h])

/-- The claimed invariant: every container in the in-memory map is either
mapped from its session key or in the warm pool, never both. -/
def poolInvariant (st : PoolState) : Prop :=
  ∀ p ∈ st.containers,
    (sessionMapped st p.1 p.2 ∨ p.1 ∈ st.warmPool) ∧
      ¬(sessionMapped st p.1 p.2 ∧ p.1 ∈ st.warmPool)

instance (st : PoolState) : Decidable (poolInvariant st) := by
  unfold poolInvariant; infer_instance

/-- The "never both" half of the invariant alone. -/
def poolAtMostOne (st : PoolState) : Prop :=
  ∀ p ∈ st.containers, ¬(sessionMapped st p.1 p.2 ∧ p.1 ∈ st.warmPool)

instance (st : PoolState) : Decidable (poolAtMostOne st) := by
  unfold poolAtMostOne; infer_instance

/-- The container map holds an entry for `name` whose session key is `k`. -/
def containerHasKey (st : PoolState) (name : String) (k : Option String) : Prop :=
  match mapGet st.containers name with
  | some e => e.sessionKey = k
  | none => False

instance (st : PoolState) (name : String) (k : Option String) :
    Decidable (containerHasKey st name k) :=
  match h : mapGet st.containers name with
  | some e => decidable_of_iff (e.sessionKey = k) (by simp [containerHasKey, h])
  | none => isFalse (by simp [containerHasKey, h])

/-- Well-formedness of the in-memory state and its coupling to the registry,
maintained by the pool manager: unique keys, container-map keys naming their
entries, no empty names or empty session keys, registry agreement on session
keys, and the session map / warm pool pointing at container-map entries whose
session key matches. -/
def poolWF (st : PoolState) (reg : List ContainerRegistryEntry) : Prop :=
  (st.containers.map (·.1)).Nodup ∧
  (st.sessionToContainer.map (·.1)).Nodup ∧
  st.warmPool.Nodup ∧
  (∀ p ∈ st.containers, p.2.containerName = p.1 ∧ p.1 ≠ "" ∧ p.2.sessionKey ≠ some "") ∧
  (reg.map (·.containerName)).Nodup ∧
  (∀ e ∈ reg, e.containerName ≠ "" ∧ e.sessionKey ≠ some "") ∧
  (∀ p ∈ st.containers, ∃ re ∈ reg, re.containerName = p.1 ∧ re.sessionKey = p.2.sessionKey) ∧
  (∀ q ∈ st.sessionToContainer, q.1 ≠ "" ∧ containerHasKey st q.2 (some q.1)) ∧
  (∀ name ∈ st.warmPool, containerHasKey st name none)

instance (st : PoolState) (reg : List ContainerRegistryEntry) : Decidable (poolWF st reg) := by
  unfold poolWF; infer_instance

/-- The session-to-container map left by `removeContainerByName`: the
removed container's own mapping is severed when its entry carries a truthy
session key. -/
def removedSessionMap (st : PoolState) (n : String) : List (String × String) :=
  match (mapGet st.containers n).bind (·.sessionKey) with
  | some k => if k = "" then st.sessionToContainer else mapDelete st.sessionToContainer k
  | none => st.sessionToContainer

/-- Registry side conditions used by the `syncState` rebuild: assigned
session keys are unique across entries, and unassigned entries are idle. -/
def regKeysInjective (reg : List ContainerRegistryEntry) : Prop :=
  ∀ e1 ∈ reg, ∀ e2 ∈ reg, e1.sessionKey ≠ none → e1.sessionKey = e2.sessionKey → e1 = e2

instance (reg : List ContainerRegistryEntry) : Decidable (regKeysInjective reg) := by
  unfold regKeysInjective; infer_instance

def regUnassignedIdle (reg : List ContainerRegistryEntry) : Prop :=
  ∀ e ∈ reg, e.sessionKey = none → e.status = ContainerStatus.idle

instance (reg : List ContainerRegistryEntry) : Decidable (regUnassignedIdle reg) := by
  unfold regUnassignedIdle; infer_instance

/-- The registry hypotheses under which the `syncState` rebuild establishes
the pool invariant: unique container names, no empty names or empty session
keys, injective assigned session keys, and idle unassigned entries. -/
def regWF (reg : List ContainerRegistryEntry) : Prop :=
  (reg.map (·.containerName)).Nodup ∧
  (∀ e ∈ reg, e.containerName ≠ "" ∧ e.sessionKey ≠ some "") ∧
  regKeysInjective reg ∧
  regUnassignedIdle reg

instance (reg : List ContainerRegistryEntry) : Decidable (regWF reg) := by
  unfold regWF; infer_instance

/-- Freshness of a `createAndStartContainer` outcome: when creation
succeeds, the new container's name is non-empty and unknown to both the
in-memory container map and the registry. -/
def createFresh (createResult : Option (String × String)) (st : PoolState)
    (reg : List ContainerRegistryEntry) : Prop :=
  match createResult with
  | none => True
  | some (_, cname) =>
    cname ≠ "" ∧ mapGet st.containers cname = none ∧ ∀ e ∈ reg, e.containerName ≠ cname

instance (createResult : Option (String × String)) (st : PoolState)
    (reg : List ContainerRegistryEntry) : Decidable (createFresh createResult st reg) :=
  match createResult with
  | none => isTrue trivial
  | some (_, cname) =>
    decidable_of_iff
      (cname ≠ "" ∧ mapGet st.containers cname = none ∧ ∀ e ∈ reg, e.containerName ≠ cname)
      Iff.rfl

/-- Freshness of the warm-creation oracle used by `ensureWarmPool`: every
successful creation yields a non-empty name unknown to the in-memory map and
the registry, and distinct creations yield distinct names. -/
def createsFresh (creates : Nat → Option (String × String)) (st : PoolState)
    (reg : List ContainerRegistryEntry) : Prop :=
  ∀ i cid cname, creates i = some (cid, cname) →
    cname ≠ "" ∧ mapGet st.containers cname = none ∧
    (∀ e ∈ reg, e.containerName ≠ cname) ∧
    (∀ j cid2 cname2, j ≠ i → creates j = some (cid2, cname2) → cname2 ≠ cname)

/-- A concrete decoder (the identity, packing the record as a string), used
to instantiate the parser theorems on concrete inputs. -/
def decodeStr : List Char → Option String := fun l => some (String.mk l)

/-! ## Parser lemmas -/

theorem scanClose_inl_lt :
    ∀ (cs : List Char) (bc : Int) (j : Nat), scanClose cs bc = Sum.inl j → j < cs.length := by
  intro cs
  induction cs with
  | nil => intro bc j h; simp [scanClose] at h
  | cons c rest ih =>
    intro bc j h
    by_cases h1 : c = '{'
    · simp only [scanClose, if_pos h1] at h
      cases hrec : scanClose rest (bc + 1) with
      | inl j' =>
        rw [hrec] at h
        simp only [Sum.inl.injEq] at h
        have := ih (bc + 1) j' hrec
        simp only [List.length_cons]
        omega
      | inr b => rw [hrec] at h; simp at h
    · by_cases h2 : c = '}'
      · simp only [scanClose, if_neg h1, if_pos h2] at h
        by_cases h3 : bc - 1 = 0
        · rw [if_pos h3] at h
          simp only [Sum.inl.injEq] at h
          simp only [List.length_cons]
          omega
        · rw [if_neg h3] at h
          cases hrec : scanClose rest (bc - 1) with
          | inl j' =>
            rw [hrec] at h
            simp only [Sum.inl.injEq] at h
            have := ih (bc - 1) j' hrec
            simp only [List.length_cons]
            omega
          | inr b => rw [hrec] at h; simp at h
      · simp only [scanClose, if_neg h1, if_neg h2] at h
        cases hrec : scanClose rest bc with
        | inl j' =>
          rw [hrec] at h
          simp only [Sum.inl.injEq] at h
          have := ih bc j' hrec
          simp only [List.length_cons]
          omega
        | inr b => rw [hrec] at h; simp at h

theorem scanClose_append_inl :
    ∀ (xs : List Char) (bc : Int) (j : Nat) (ys : List Char),
      scanClose xs bc = Sum.inl j → scanClose (xs ++ ys) bc = Sum.inl j := by
  intro xs
  induction xs with
  | nil => intro bc j ys h; simp [scanClose] at h
  | cons c rest ih =>
    intro bc j ys h
    by_cases h1 : c = '{'
    · simp only [List.cons_append, List.append_eq, scanClose, if_pos h1] at h ⊢
      cases hrec : scanClose rest (bc + 1) with
      | inl j' =>
        rw [hrec] at h
        rw [ih (bc + 1) j' ys hrec]
        exact h
      | inr b => rw [hrec] at h; simp at h
    · by_cases h2 : c = '}'
      · simp only [List.cons_append, List.append_eq, scanClose, if_neg h1, if_pos h2] at h ⊢
        by_cases h3 : bc - 1 = 0
        · rw [if_pos h3] at h ⊢; exact h
        · rw [if_neg h3] at h ⊢
          cases hrec : scanClose rest (bc - 1) with
          | inl j' =>
            rw [hrec] at h
            rw [ih (bc - 1) j' ys hrec]
            exact h
          | inr b => rw [hrec] at h; simp at h
      · simp only [List.cons_append, List.append_eq, scanClose, if_neg h1, if_neg h2] at h ⊢
        cases hrec : scanClose rest bc with
        | inl j' =>
          rw [hrec] at h
          rw [ih bc j' ys hrec]
          exact h
        | inr b => rw [hrec] at h; simp at h

theorem scanClose_append_inr :
    ∀ (xs : List Char) (bc b : Int) (ys : List Char),
      scanClose xs bc = Sum.inr b →
      scanClose (xs ++ ys) bc =
        (match scanClose ys b with
         | Sum.inl j => Sum.inl (xs.length + j)
         | Sum.inr b2 => Sum.inr b2) := by
  intro xs
  induction xs with
  | nil =>
    intro bc b ys h
    simp only [scanClose, Sum.inr.injEq] at h
    subst h
    simp only [List.nil_append, List.length_nil]
    cases hy : scanClose ys bc with
    | inl j => simp [hy]
    | inr b2 => simp [hy]
  | cons c rest ih =>
    intro bc b ys h
    by_cases h1 : c = '{'
    · simp only [List.cons_append, List.append_eq, scanClose, if_pos h1] at h ⊢
      cases hrec : scanClose rest (bc + 1) with
      | inl j' => rw [hrec] at h; simp at h
      | inr b' =>
        rw [hrec] at h
        cases h
        rw [ih (bc + 1) b ys hrec]
        cases hy : scanClose ys b with
        | inl j =>
          simp only [List.length_cons]
          congr 1
          omega
        | inr b2 => simp
    · by_cases h2 : c = '}'
      · simp only [List.cons_append, List.append_eq, scanClose, if_neg h1, if_pos h2] at h ⊢
        by_cases h3 : bc - 1 = 0
        · rw [if_pos h3] at h; simp at h
        · rw [if_neg h3] at h ⊢
          cases hrec : scanClose rest (bc - 1) with
          | inl j' => rw [hrec] at h; simp at h
          | inr b' =>
            rw [hrec] at h
            cases h
            rw [ih (bc - 1) b ys hrec]
            cases hy : scanClose ys b with
            | inl j =>
              simp only [List.length_cons]
              congr 1
              omega
            | inr b2 => simp
      · simp only [List.cons_append, List.append_eq, scanClose, if_neg h1, if_neg h2] at h ⊢
        cases hrec : scanClose rest bc with
        | inl j' => rw [hrec] at h; simp at h
        | inr b' =>
          rw [hrec] at h
          cases h
          rw [ih bc b ys hrec]
          cases hy : scanClose ys b with
          | inl j =>
            simp only [List.length_cons]
            congr 1
            omega
          | inr b2 => simp

theorem firstOpen_lt :
    ∀ (xs : List Char) (i : Nat), firstOpen xs = some i → i < xs.length := by
  intro xs
  induction xs with
  | nil => intro i h; simp [firstOpen] at h
  | cons c rest ih =>
    intro i h
    by_cases h1 : c = '{'
    · simp only [firstOpen, if_pos h1, Option.some.injEq] at h
      subst h
      simp only [List.length_cons]
      omega
    · simp only [firstOpen, if_neg h1] at h
      cases hrec : firstOpen rest with
      | none => rw [hrec] at h; simp at h
      | some i' =>
        rw [hrec] at h
        simp at h
        have := ih i' hrec
        simp only [List.length_cons]
        omega

theorem firstOpen_append_some :
    ∀ (xs : List Char) (i : Nat) (ys : List Char),
      firstOpen xs = some i → firstOpen (xs ++ ys) = some i := by
  intro xs
  induction xs with
  | nil => intro i ys h; simp [firstOpen] at h
  | cons c rest ih =>
    intro i ys h
    by_cases h1 : c = '{'
    · simp only [List.cons_append, List.append_eq, firstOpen, if_pos h1] at h ⊢
      exact h
    · simp only [List.cons_append, List.append_eq, firstOpen, if_neg h1] at h ⊢
      cases hrec : firstOpen rest with
      | none => rw [hrec] at h; simp at h
      | some i' =>
        rw [hrec] at h
        rw [ih i' ys hrec]
        exact h

theorem firstOpen_append_none :
    ∀ (xs ys : List Char),
      firstOpen xs = none →
      firstOpen (xs ++ ys) = (firstOpen ys).map (· + xs.length) := by
  intro xs
  induction xs with
  | nil =>
    intro ys _
    simp only [List.nil_append, List.length_nil]
    cases hy : firstOpen ys <;> simp [hy]
  | cons c rest ih =>
    intro ys h
    by_cases h1 : c = '{'
    · simp [firstOpen, if_pos h1] at h
    · simp only [List.cons_append, List.append_eq, firstOpen, if_neg h1] at h ⊢
      cases hrec : firstOpen rest with
      | none =>
        rw [ih ys hrec]
        cases hy : firstOpen ys with
        | none => simp
        | some i =>
          show some (i + rest.length + 1) = some (i + (rest.length + 1))
          simp [Nat.add_assoc]
      | some i' => rw [hrec] at h; simp at h

theorem firstOpen_eq_none :
    ∀ (xs : List Char), NoOpen xs → firstOpen xs = none := by
  intro xs
  induction xs with
  | nil => intro _; rfl
  | cons c rest ih =>
    intro h
    have h1 : ¬ c = '{' := fun hc => h (hc ▸ List.mem_cons_self c rest)
    have h2 : NoOpen rest := fun hm => h (List.mem_cons_of_mem c hm)
    simp [firstOpen, if_neg h1, ih h2]

theorem loopMeasure_pos (s : ParserState) : 0 < loopMeasure s := by
  simp only [loopMeasure]
  split <;> omega

theorem loopMeasure_align_lt (s : ParserState) (idx : Nat) (hj : s.inJson = false) :
    loopMeasure ⟨s.buffer.drop idx, true, 0, 0⟩ < loopMeasure s := by
  simp only [loopMeasure, hj, List.length_drop, if_true, if_false, Bool.false_eq_true]
  omega

theorem loopMeasure_slice_lt (s : ParserState) (k : Nat)
    (hb : ¬ s.buffer = []) (hj : s.inJson = true) :
    loopMeasure ⟨s.buffer.drop (k + 1), false, 0, 0⟩ < loopMeasure s := by
  have hlen : 0 < s.buffer.length := List.length_pos.mpr hb
  simp only [loopMeasure, hj, List.length_drop, if_true, if_false, Bool.false_eq_true]
  omega

theorem feedLoopF_irrel (d : List Char → Option α) :
    ∀ (n m : Nat) (s : ParserState), loopMeasure s < n → loopMeasure s < m →
      feedLoopF d n s = feedLoopF d m s := by
  intro n
  induction n with
  | zero => intro m s hn; exact absurd hn (Nat.not_lt_zero _)
  | succ n ih =>
    intro m s hn hm
    cases m with
    | zero => exact absurd hm (Nat.not_lt_zero _)
    | succ m =>
      show feedStep d (feedLoopF d n) s = feedStep d (feedLoopF d m) s
      by_cases hb : s.buffer = []
      · simp [feedStep, hb]
      · by_cases hj : s.inJson = true
        · simp only [feedStep, if_neg hb, if_pos hj]
          cases hscan : scanClose (s.buffer.drop s.scanPosition) s.braceCount with
          | inr bc => simp [hscan]
          | inl j =>
            simp only [hscan]
            have hlt := loopMeasure_slice_lt s (s.scanPosition + j) hb hj
            rw [ih m ⟨s.buffer.drop (s.scanPosition + j + 1), false, 0, 0⟩
              (by omega) (by omega)]
        · have hj' : s.inJson = false := by
            cases h : s.inJson
            · rfl
            · exact absurd h hj
          simp only [feedStep, if_neg hb, if_neg hj]
          cases ho : firstOpen s.buffer with
          | none => simp [ho]
          | some idx =>
            simp only [ho]
            have hlt := loopMeasure_align_lt s idx hj'
            rw [ih m ⟨s.buffer.drop idx, true, 0, 0⟩ (by omega) (by omega)]

theorem feedLoop_eq_step (d : List Char → Option α) (s : ParserState) :
    feedLoop d s = feedStep d (feedLoop d) s := by
  show feedLoopF d (loopMeasure s + 1) s = _
  show feedStep d (feedLoopF d (loopMeasure s)) s = _
  by_cases hb : s.buffer = []
  · simp [feedStep, hb]
  · by_cases hj : s.inJson = true
    · simp only [feedStep, if_neg hb, if_pos hj]
      cases hscan : scanClose (s.buffer.drop s.scanPosition) s.braceCount with
      | inr bc => simp [hscan]
      | inl j =>
        simp only [hscan]
        have hlt := loopMeasure_slice_lt s (s.scanPosition + j) hb hj
        rw [feedLoopF_irrel d (loopMeasure s)
          (loopMeasure ⟨s.buffer.drop (s.scanPosition + j + 1), false, 0, 0⟩ + 1)
          ⟨s.buffer.drop (s.scanPosition + j + 1), false, 0, 0⟩ (by omega) (by omega)]
        rfl
    · have hj' : s.inJson = false := by
        cases h : s.inJson
        · rfl
        · exact absurd h hj
      simp only [feedStep, if_neg hb, if_neg hj]
      cases ho : firstOpen s.buffer with
      | none => simp [ho]
      | some idx =>
        simp only [ho]
        have hlt := loopMeasure_align_lt s idx hj'
        rw [feedLoopF_irrel d (loopMeasure s)
          (loopMeasure ⟨s.buffer.drop idx, true, 0, 0⟩ + 1)
          ⟨s.buffer.drop idx, true, 0, 0⟩ (by omega) (by omega)]
        rfl

theorem feedLoop_empty (d : List Char → Option α) (s : ParserState) (hb : s.buffer = []) :
    feedLoop d s = ([], s) := by
  rw [feedLoop_eq_step]; simp [feedStep, hb]

theorem feedLoop_noopen (d : List Char → Option α) (s : ParserState)
    (hb : ¬ s.buffer = []) (hj : s.inJson = false) (hfo : firstOpen s.buffer = none) :
    feedLoop d s = ([], ⟨[], false, s.braceCount, 0⟩) := by
  rw [feedLoop_eq_step]
  simp [feedStep, hb, hj, hfo]

theorem feedLoop_align (d : List Char → Option α) (s : ParserState) (idx : Nat)
    (hb : ¬ s.buffer = []) (hj : s.inJson = false) (hfo : firstOpen s.buffer = some idx) :
    feedLoop d s = feedLoop d ⟨s.buffer.drop idx, true, 0, 0⟩ := by
  rw [feedLoop_eq_step]
  simp [feedStep, hb, hj, hfo]

theorem feedLoop_scan_incomplete (d : List Char → Option α) (s : ParserState) (b : Int)
    (hb : ¬ s.buffer = []) (hj : s.inJson = true)
    (hscan : scanClose (s.buffer.drop s.scanPosition) s.braceCount = Sum.inr b) :
    feedLoop d s = ([], ⟨s.buffer, true, b, s.buffer.length⟩) := by
  rw [feedLoop_eq_step]
  simp [feedStep, hb, hj, hscan]

theorem feedLoop_scan_complete (d : List Char → Option α) (s : ParserState) (j : Nat)
    (hb : ¬ s.buffer = []) (hj : s.inJson = true)
    (hscan : scanClose (s.buffer.drop s.scanPosition) s.braceCount = Sum.inl j) :
    feedLoop d s =
      ((d (s.buffer.take (s.scanPosition + j + 1))).toList ++
          (feedLoop d ⟨s.buffer.drop (s.scanPosition + j + 1), false, 0, 0⟩).1,
        (feedLoop d ⟨s.buffer.drop (s.scanPosition + j + 1), false, 0, 0⟩).2) := by
  rw [feedLoop_eq_step]
  simp [feedStep, hb, hj, hscan]

/-- The parser state left behind by the while-loop always has its scan
cursor within the buffer (given it started that way). -/
theorem feedLoop_sp_le (d : List Char → Option α) :
    ∀ (s : ParserState), s.scanPosition ≤ s.buffer.length →
      (feedLoop d s).2.scanPosition ≤ (feedLoop d s).2.buffer.length := by
  suffices H : ∀ (n : Nat) (s : ParserState), loopMeasure s ≤ n →
      s.scanPosition ≤ s.buffer.length →
      (feedLoop d s).2.scanPosition ≤ (feedLoop d s).2.buffer.length from
    fun s hsp => H (loopMeasure s) s le_rfl hsp
  intro n
  induction n using Nat.strong_induction_on with
  | _ n ih =>
    intro s hn hsp
    by_cases hb : s.buffer = []
    · rw [feedLoop_empty d s hb]
      exact hsp
    · cases hj : s.inJson with
      | true =>
        cases hscan : scanClose (s.buffer.drop s.scanPosition) s.braceCount with
        | inr b =>
          rw [feedLoop_scan_incomplete d s b hb hj hscan]
        | inl j =>
          rw [feedLoop_scan_complete d s j hb hj hscan]
          have hlt := loopMeasure_slice_lt s (s.scanPosition + j) hb hj
          exact ih (loopMeasure ⟨s.buffer.drop (s.scanPosition + j + 1), false, 0, 0⟩)
            (by omega) _ le_rfl (by simp)
      | false =>
        cases hfo : firstOpen s.buffer with
        | none =>
          rw [feedLoop_noopen d s hb hj hfo]
          simp
        | some idx =>
          rw [feedLoop_align d s idx hb hj hfo]
          have hlt := loopMeasure_align_lt s idx hj
          exact ih (loopMeasure ⟨s.buffer.drop idx, true, 0, 0⟩)
            (by omega) _ le_rfl (by simp)

/-- The state the while-loop exits with is quiescent: running the loop on it
again emits nothing and leaves it unchanged. -/
theorem feedLoop_fix (d : List Char → Option α) :
    ∀ (s : ParserState), feedLoop d (feedLoop d s).2 = ([], (feedLoop d s).2) := by
  suffices H : ∀ (n : Nat) (s : ParserState), loopMeasure s ≤ n →
      feedLoop d (feedLoop d s).2 = ([], (feedLoop d s).2) from
    fun s => H (loopMeasure s) s le_rfl
  intro n
  induction n using Nat.strong_induction_on with
  | _ n ih =>
    intro s hn
    by_cases hb : s.buffer = []
    · rw [feedLoop_empty d s hb]
      exact feedLoop_empty d s hb
    · cases hj : s.inJson with
      | true =>
        cases hscan : scanClose (s.buffer.drop s.scanPosition) s.braceCount with
        | inr b =>
          rw [feedLoop_scan_incomplete d s b hb hj hscan]
          exact feedLoop_scan_incomplete d ⟨s.buffer, true, b, s.buffer.length⟩ b hb rfl
            (by simp [List.drop_length, scanClose])
        | inl j =>
          rw [feedLoop_scan_complete d s j hb hj hscan]
          have hlt := loopMeasure_slice_lt s (s.scanPosition + j) hb hj
          exact ih (loopMeasure ⟨s.buffer.drop (s.scanPosition + j + 1), false, 0, 0⟩)
            (by omega) _ le_rfl
      | false =>
        cases hfo : firstOpen s.buffer with
        | none =>
          rw [feedLoop_noopen d s hb hj hfo]
          exact feedLoop_empty d _ rfl
        | some idx =>
          rw [feedLoop_align d s idx hb hj hfo]
          have hlt := loopMeasure_align_lt s idx hj
          exact ih (loopMeasure ⟨s.buffer.drop idx, true, 0, 0⟩) (by omega) _ le_rfl

/-- Central lemma: running the while-loop on a buffer extended by `e` is the
same as running it on the original buffer and then feeding `e` to the
resulting state.  This is exactly why `feed` is insensitive to chunk
boundaries. -/
theorem feedLoop_append (d : List Char → Option α) :
    ∀ (s : ParserState), s.scanPosition ≤ s.buffer.length → ∀ (e : List Char),
      feedLoop d (appendData s e) =
        ((feedLoop d s).1 ++ (feedLoop d (appendData (feedLoop d s).2 e)).1,
          (feedLoop d (appendData (feedLoop d s).2 e)).2) := by
  suffices H : ∀ (n : Nat) (s : ParserState), loopMeasure s ≤ n →
      s.scanPosition ≤ s.buffer.length → ∀ (e : List Char),
      feedLoop d (appendData s e) =
        ((feedLoop d s).1 ++ (feedLoop d (appendData (feedLoop d s).2 e)).1,
          (feedLoop d (appendData (feedLoop d s).2 e)).2) from
    fun s hsp e => H (loopMeasure s) s le_rfl hsp e
  intro n
  induction n using Nat.strong_induction_on with
  | _ n ih =>
    intro s hn hsp e
    obtain ⟨B, inJ, bc, sp⟩ := s
    simp only [appendData] at *
    by_cases hb : B = []
    · subst hb
      rw [feedLoop_empty d ⟨[], inJ, bc, sp⟩ rfl]
      simp only [List.nil_append]
    · have hbe : ¬ B ++ e = [] := fun h => hb (List.append_eq_nil.mp h).1
      cases inJ with
      | false =>
        cases hfo : firstOpen B with
        | none =>
          rw [feedLoop_noopen d ⟨B, false, bc, sp⟩ hb rfl hfo]
          simp only [appendData, List.nil_append]
          cases hfe : firstOpen e with
          | none =>
            have hfBe : firstOpen (B ++ e) = none := by
              rw [firstOpen_append_none B e hfo, hfe]; rfl
            rw [feedLoop_noopen d ⟨B ++ e, false, bc, sp⟩ hbe rfl hfBe]
            by_cases he : e = []
            · subst he
              rw [feedLoop_empty d ⟨[], false, bc, 0⟩ rfl]
            · rw [feedLoop_noopen d ⟨e, false, bc, 0⟩ he rfl hfe]
          | some i =>
            have he : ¬ e = [] := by
              intro h; subst h; simp [firstOpen] at hfe
            have hfBe : firstOpen (B ++ e) = some (i + B.length) := by
              rw [firstOpen_append_none B e hfo, hfe]; rfl
            rw [feedLoop_align d ⟨B ++ e, false, bc, sp⟩ (i + B.length) hbe rfl hfBe]
            rw [feedLoop_align d ⟨e, false, bc, 0⟩ i he rfl hfe]
            have hdrop : (B ++ e).drop (i + B.length) = e.drop i := by
              rw [Nat.add_comm, List.drop_append]
            rw [hdrop]
        | some idx =>
          rw [feedLoop_align d ⟨B, false, bc, sp⟩ idx hb rfl hfo]
          have hidx := firstOpen_lt B idx hfo
          have h1 : feedLoop d ⟨B ++ e, false, bc, sp⟩ =
              feedLoop d ⟨(B ++ e).drop idx, true, 0, 0⟩ :=
            feedLoop_align d ⟨B ++ e, false, bc, sp⟩ idx hbe rfl
              (firstOpen_append_some B idx e hfo)
          rw [h1]
          have hdrop : (B ++ e).drop idx = B.drop idx ++ e :=
            List.drop_append_of_le_length (Nat.le_of_lt hidx)
          rw [hdrop]
          have hlt : loopMeasure ⟨B.drop idx, true, 0, 0⟩ <
              loopMeasure ⟨B, false, bc, sp⟩ :=
            loopMeasure_align_lt ⟨B, false, bc, sp⟩ idx rfl
          exact ih (loopMeasure ⟨B.drop idx, true, 0, 0⟩) (by omega)
            ⟨B.drop idx, true, 0, 0⟩ le_rfl (by simp) e
      | true =>
        have hdropsp : (B ++ e).drop sp = B.drop sp ++ e :=
          List.drop_append_of_le_length hsp
        cases hscan : scanClose (B.drop sp) bc with
        | inr b =>
          rw [feedLoop_scan_incomplete d ⟨B, true, bc, sp⟩ b hb rfl hscan]
          simp only [appendData, List.nil_append]
          have hsc2 := scanClose_append_inr (B.drop sp) bc b e hscan
          cases hse : scanClose e b with
          | inr b2 =>
            rw [hse] at hsc2
            have hL : feedLoop d ⟨B ++ e, true, bc, sp⟩ =
                ([], ⟨B ++ e, true, b2, (B ++ e).length⟩) := by
              apply feedLoop_scan_incomplete d ⟨B ++ e, true, bc, sp⟩ b2 hbe rfl
              show scanClose ((B ++ e).drop sp) bc = Sum.inr b2
              rw [hdropsp]; exact hsc2
            have hR : feedLoop d ⟨B ++ e, true, b, B.length⟩ =
                ([], ⟨B ++ e, true, b2, (B ++ e).length⟩) := by
              apply feedLoop_scan_incomplete d ⟨B ++ e, true, b, B.length⟩ b2 hbe rfl
              show scanClose ((B ++ e).drop B.length) b = Sum.inr b2
              rw [List.drop_left]; exact hse
            rw [hL, hR]
          | inl j =>
            rw [hse] at hsc2
            have hjlen : (B.drop sp).length = B.length - sp := List.length_drop sp B
            have habs : sp + ((B.drop sp).length + j) + 1 = B.length + j + 1 := by
              omega
            have hL : feedLoop d ⟨B ++ e, true, bc, sp⟩ =
                ((d ((B ++ e).take (sp + ((B.drop sp).length + j) + 1))).toList ++
                    (feedLoop d ⟨(B ++ e).drop (sp + ((B.drop sp).length + j) + 1),
                      false, 0, 0⟩).1,
                  (feedLoop d ⟨(B ++ e).drop (sp + ((B.drop sp).length + j) + 1),
                    false, 0, 0⟩).2) := by
              apply feedLoop_scan_complete d ⟨B ++ e, true, bc, sp⟩ _ hbe rfl
              show scanClose ((B ++ e).drop sp) bc = _
              rw [hdropsp]; exact hsc2
            have hR : feedLoop d ⟨B ++ e, true, b, B.length⟩ =
                ((d ((B ++ e).take (B.length + j + 1))).toList ++
                    (feedLoop d ⟨(B ++ e).drop (B.length + j + 1), false, 0, 0⟩).1,
                  (feedLoop d ⟨(B ++ e).drop (B.length + j + 1), false, 0, 0⟩).2) := by
              apply feedLoop_scan_complete d ⟨B ++ e, true, b, B.length⟩ j hbe rfl
              show scanClose ((B ++ e).drop B.length) b = Sum.inl j
              rw [List.drop_left]; exact hse
            rw [hL, habs, hR]
        | inl j =>
          have hjlt := scanClose_inl_lt (B.drop sp) bc j hscan
          have hjlen : (B.drop sp).length = B.length - sp := List.length_drop sp B
          rw [feedLoop_scan_complete d ⟨B, true, bc, sp⟩ j hb rfl hscan]
          simp only
          have hsc2 := scanClose_append_inl (B.drop sp) bc j e hscan
          have hL : feedLoop d ⟨B ++ e, true, bc, sp⟩ =
              ((d ((B ++ e).take (sp + j + 1))).toList ++
                  (feedLoop d ⟨(B ++ e).drop (sp + j + 1), false, 0, 0⟩).1,
                (feedLoop d ⟨(B ++ e).drop (sp + j + 1), false, 0, 0⟩).2) := by
            apply feedLoop_scan_complete d ⟨B ++ e, true, bc, sp⟩ j hbe rfl
            show scanClose ((B ++ e).drop sp) bc = Sum.inl j
            rw [hdropsp]; exact hsc2
          rw [hL]
          have htake : (B ++ e).take (sp + j + 1) = B.take (sp + j + 1) :=
            List.take_append_of_le_length (by omega)
          have hdrop2 : (B ++ e).drop (sp + j + 1) = B.drop (sp + j + 1) ++ e :=
            List.drop_append_of_le_length (by omega)
          rw [htake, hdrop2]
          have hlt : loopMeasure ⟨B.drop (sp + j + 1), false, 0, 0⟩ <
              loopMeasure ⟨B, true, bc, sp⟩ :=
            loopMeasure_slice_lt ⟨B, true, bc, sp⟩ (sp + j) hb rfl
          have hIH := ih (loopMeasure ⟨B.drop (sp + j + 1), false, 0, 0⟩) (by omega)
            ⟨B.drop (sp + j + 1), false, 0, 0⟩ le_rfl (by simp) e
          simp only [appendData] at hIH
          rw [hIH]
          simp [List.append_assoc]

/-- `feed` over a state whose scan cursor is inside the buffer splits over
concatenation of the data. -/
theorem feed_append (d : List Char → Option α) (s : ParserState)
    (hsp : s.scanPosition ≤ s.buffer.length) (a b : List Char) :
    feed d s (a ++ b) =
      ((feed d s a).1 ++ (feed d (feed d s a).2 b).1, (feed d (feed d s a).2 b).2) := by
  have h1 : appendData s (a ++ b) = appendData (appendData s a) b := by
    simp [appendData, List.append_assoc]
  show feedLoop d (appendData s (a ++ b)) = _
  rw [h1]
  exact feedLoop_append d (appendData s a)
    (by simp only [appendData]; simp [List.length_append]; omega) b

theorem braceDelta_nil : braceDelta [] = 0 := rfl

theorem braceDelta_cons (c : Char) (cs : List Char) :
    braceDelta (c :: cs) =
      (if c = '{' then 1 else if c = '}' then -1 else 0) + braceDelta cs := by
  unfold braceDelta
  by_cases h1 : c = '{'
  · subst h1
    simp [List.count_cons]
    ring
  · by_cases h2 : c = '}'
    · subst h2
      simp [List.count_cons, h1]
      ring
    · simp [List.count_cons, h1, h2]

/-- The scanner closes a balanced stretch exactly at its last character:
if the running count stays positive on every proper prefix of `cs` and
returns to zero over all of `cs`, the scan of `cs ++ ys` reports the close at
index `cs.length - 1`. -/
theorem scanClose_balanced :
    ∀ (cs : List Char) (b : Int) (ys : List Char),
      cs ≠ [] →
      (∀ k, k < cs.length → 0 < b + braceDelta (cs.take k)) →
      b + braceDelta cs = 0 →
      scanClose (cs ++ ys) b = Sum.inl (cs.length - 1) := by
  intro cs
  induction cs with
  | nil => intro b ys hne; exact absurd rfl hne
  | cons c rest ih =>
    intro b ys _ hpre hbal
    have hb0 : 0 < b := by
      have := hpre 0 (by simp)
      simpa [braceDelta_nil] using this
    rw [braceDelta_cons] at hbal
    by_cases h1 : c = '{'
    · rw [if_pos h1] at hbal
      have hrest : rest ≠ [] := by
        intro h
        rw [h, braceDelta_nil] at hbal
        omega
      have hpre' : ∀ k, k < rest.length → 0 < (b + 1) + braceDelta (rest.take k) := by
        intro k hk
        have := hpre (k + 1) (by simp; omega)
        rw [List.take_succ_cons, braceDelta_cons, if_pos h1] at this
        omega
      have hbal' : (b + 1) + braceDelta rest = 0 := by omega
      have := ih (b + 1) ys hrest hpre' hbal'
      simp only [List.cons_append, List.append_eq, scanClose, if_pos h1, this]
      have : rest.length - 1 + 1 = rest.length :=
        Nat.succ_pred_eq_of_pos (List.length_pos.mpr hrest)
      simp [this]
    · by_cases h2 : c = '}'
      · rw [if_neg h1, if_pos h2] at hbal
        by_cases hb1 : b - 1 = 0
        · have hrest : rest = [] := by
            by_contra h
            have := hpre 1 (by simp [List.length_pos.mpr h])
            rw [show (c :: rest).take 1 = [c] from by simp, braceDelta_cons,
              if_neg h1, if_pos h2, braceDelta_nil] at this
            omega
          subst hrest
          simp [List.cons_append, scanClose, if_neg h1, if_pos h2, hb1]
        · have hrest : rest ≠ [] := by
            intro h
            rw [h, braceDelta_nil] at hbal
            omega
          have hpre' : ∀ k, k < rest.length → 0 < (b - 1) + braceDelta (rest.take k) := by
            intro k hk
            have := hpre (k + 1) (by simp; omega)
            rw [List.take_succ_cons, braceDelta_cons, if_neg h1, if_pos h2] at this
            omega
          have hbal' : (b - 1) + braceDelta rest = 0 := by omega
          have := ih (b - 1) ys hrest hpre' hbal'
          simp only [List.cons_append, List.append_eq, scanClose, if_neg h1, if_pos h2,
            if_neg hb1, this]
          have : rest.length - 1 + 1 = rest.length :=
            Nat.succ_pred_eq_of_pos (List.length_pos.mpr hrest)
          simp [this]
      · rw [if_neg h1, if_neg h2] at hbal
        have hrest : rest ≠ [] := by
          intro h
          rw [h, braceDelta_nil] at hbal
          omega
        have hpre' : ∀ k, k < rest.length → 0 < b + braceDelta (rest.take k) := by
          intro k hk
          have := hpre (k + 1) (by simp; omega)
          rw [List.take_succ_cons, braceDelta_cons, if_neg h1, if_neg h2] at this
          omega
        have hbal' : b + braceDelta rest = 0 := by omega
        have := ih b ys hrest hpre' hbal'
        simp only [List.cons_append, List.append_eq, scanClose, if_neg h1, if_neg h2, this]
        have : rest.length - 1 + 1 = rest.length :=
          Nat.succ_pred_eq_of_pos (List.length_pos.mpr hrest)
        simp [this]

theorem isRawRecord_head {r : List Char} (h : IsRawRecord r) : ∃ t, r = '{' :: t := by
  obtain ⟨hhead, _, _⟩ := h
  cases r with
  | nil => simp at hhead
  | cons c t =>
    simp only [List.head?_cons, Option.some.injEq] at hhead
    exact ⟨t, by rw [hhead]⟩

/-- The scanner slices a raw record followed by anything at exactly the
record's last character. -/
theorem scanClose_rawRecord (r ys : List Char) (h : IsRawRecord r) :
    scanClose (r ++ ys) 0 = Sum.inl (r.length - 1) := by
  obtain ⟨t, rfl⟩ := isRawRecord_head h
  obtain ⟨hhead, hbal, hpre⟩ := h
  rw [braceDelta_cons, if_pos rfl] at hbal
  have ht : t ≠ [] := by
    intro h
    rw [h, braceDelta_nil] at hbal
    omega
  have hpre' : ∀ k, k < t.length → 0 < 1 + braceDelta (t.take k) := by
    intro k hk
    have := hpre (k + 1) (by simp; omega) (by omega)
    rw [List.take_succ_cons, braceDelta_cons, if_pos rfl] at this
    omega
  have hbal' : (1 : Int) + braceDelta t = 0 := by omega
  have hsc := scanClose_balanced t 1 ys ht hpre' hbal'
  have hred : scanClose (('{' :: t) ++ ys) 0 =
      (match scanClose (t ++ ys) 1 with
       | Sum.inl j => Sum.inl (j + 1)
       | Sum.inr b => Sum.inr b) := rfl
  rw [hred, hsc]
  have hlen : t.length - 1 + 1 = t.length := Nat.succ_pred_eq_of_pos (List.length_pos.mpr ht)
  simp [hlen]

/-- Feeding (in one shot) a concatenation of noise-prefixed raw records
emits exactly the decoded records in order and ends in the fresh state. -/
theorem feedLoop_concat (d : List Char → Option α) :
    ∀ (ps : List (List Char × List Char × α)),
      (∀ p ∈ ps, NoOpen p.1 ∧ IsRawRecord p.2.1 ∧ d p.2.1 = some p.2.2) →
      feedLoop d ⟨(ps.map fun p => p.1 ++ p.2.1).flatten, false, 0, 0⟩ =
        (ps.map fun p => p.2.2, freshParser) := by
  intro ps
  induction ps with
  | nil =>
    intro _
    simpa using feedLoop_empty d freshParser rfl
  | cons p ps ih =>
    intro hall
    obtain ⟨hno, hraw, hdec⟩ := hall p (List.mem_cons_self p ps)
    have hrne : p.2.1 ≠ [] := by
      obtain ⟨t, ht⟩ := isRawRecord_head hraw
      rw [ht]; simp
    have hflat : ((p :: ps).map fun q => q.1 ++ q.2.1).flatten =
        p.1 ++ (p.2.1 ++ (ps.map fun q => q.1 ++ q.2.1).flatten) := by
      simp [List.append_assoc]
    rw [hflat]
    set tail := (ps.map fun q => q.1 ++ q.2.1).flatten with htail
    have hrt_ne : p.2.1 ++ tail ≠ [] := fun h => hrne (List.append_eq_nil.mp h).1
    have hinput_ne : p.1 ++ (p.2.1 ++ tail) ≠ [] :=
      fun h => hrt_ne (List.append_eq_nil.mp h).2
    have hfo : firstOpen (p.1 ++ (p.2.1 ++ tail)) = some p.1.length := by
      rw [firstOpen_append_none p.1 _ (firstOpen_eq_none p.1 hno)]
      obtain ⟨t, ht⟩ := isRawRecord_head hraw
      rw [ht]
      simp [firstOpen]
    rw [feedLoop_align d ⟨p.1 ++ (p.2.1 ++ tail), false, 0, 0⟩ p.1.length hinput_ne rfl hfo]
    have hdrop : (p.1 ++ (p.2.1 ++ tail)).drop p.1.length = p.2.1 ++ tail :=
      List.drop_left p.1 _
    rw [hdrop]
    have hscan : scanClose ((p.2.1 ++ tail).drop 0) 0 = Sum.inl (p.2.1.length - 1) := by
      rw [List.drop_zero]
      exact scanClose_rawRecord p.2.1 tail hraw
    rw [feedLoop_scan_complete d ⟨p.2.1 ++ tail, true, 0, 0⟩ (p.2.1.length - 1)
      hrt_ne rfl hscan]
    have hlen1 : 0 + (p.2.1.length - 1) + 1 = p.2.1.length := by
      have : 0 < p.2.1.length := List.length_pos.mpr hrne
      omega
    rw [hlen1]
    have htake : (p.2.1 ++ tail).take p.2.1.length = p.2.1 := List.take_left p.2.1 tail
    have hdrop2 : (p.2.1 ++ tail).drop p.2.1.length = tail := List.drop_left p.2.1 tail
    rw [htake, hdrop2, hdec]
    rw [ih (fun q hq => hall q (List.mem_cons_of_mem _ hq))]
    simp [Option.toList]

/-- Feeding chunk-by-chunk from a quiescent state is feeding the
concatenation. -/
theorem feedMany_flatten (d : List Char → Option α) :
    ∀ (cs : List (List Char)) (s : ParserState),
      feedLoop d s = ([], s) → s.scanPosition ≤ s.buffer.length →
      feedMany d s cs = feed d s cs.flatten := by
  intro cs
  induction cs with
  | nil =>
    intro s hq hsp
    show ([], s) = feedLoop d (appendData s [])
    have : appendData s [] = s := by simp [appendData]
    rw [this, hq]
  | cons c cs ih =>
    intro s hq hsp
    show ((feed d s c).1 ++ (feedMany d (feed d s c).2 cs).1,
        (feedMany d (feed d s c).2 cs).2) = feed d s (c :: cs).flatten
    have hq' : feedLoop d (feed d s c).2 = ([], (feed d s c).2) :=
      feedLoop_fix d (appendData s c)
    have hsp' : (feed d s c).2.scanPosition ≤ (feed d s c).2.buffer.length :=
      feedLoop_sp_le d (appendData s c)
        (by simp only [appendData]; simp [List.length_append]; omega)
    rw [ih (feed d s c).2 hq' hsp']
    have hflat : (c :: cs).flatten = c ++ cs.flatten := rfl
    rw [hflat, feed_append d s hsp c cs.flatten]

/-- **C1.** Stream-parser split law: for every pair of strings `a` and `b`,
feeding their concatenation to a fresh parser emits exactly the same
sequence of parsed records as feeding `a` and then `b` in two successive
calls to a fresh parser.  (Stated for an arbitrary record decoder.) -/
theorem claim_C1_parser_split_law {α : Type} (decode : List Char → Option α)
    (a b : List Char) :
    (feed decode freshParser (a ++ b)).1 =
      (feed decode freshParser a).1 ++ (feed decode (feed decode freshParser a).2 b).1 := by
  rw [feed_append decode freshParser (by simp [freshParser]) a b]

/-- **C7 counterexample.** With arbitrary noise the claim fails: the noise
byte `{` before a valid record makes the parser treat the noise as a record
opener, and the single valid record `{}` is never emitted (the parser emits
nothing at all). -/
theorem claim_C7_counterexample :
    IsRawRecord ['{', '}'] ∧ decodeStr ['{', '}'] = some "{}" ∧
      (feedMany decodeStr freshParser [['{', '{', '}']]).1 = [] := by
    refine ⟨by decide, by decide, by decide⟩

/-- **C7 (amended).** For every input formed as the concatenation of `n`
valid brace-balanced records, each preceded by noise that contains no
opening brace, feeding that input to the stream parser under any chunking
emits exactly those `n` records, in input order, each exactly once. -/
theorem claim_C7_noise_records {α : Type} (decode : List Char → Option α)
    (ps : List (List Char × List Char × α)) (cs : List (List Char))
    (hps : ∀ p ∈ ps, NoOpen p.1 ∧ IsRawRecord p.2.1 ∧ decode p.2.1 = some p.2.2)
    (hcs : cs.flatten = (ps.map fun p => p.1 ++ p.2.1).flatten) :
    (feedMany decode freshParser cs).1 = ps.map fun p => p.2.2 := by
  rw [feedMany_flatten decode cs freshParser (feedLoop_empty decode freshParser rfl)
    (by simp [freshParser])]
  show (feedLoop decode (appendData freshParser cs.flatten)).1 = _
  have hst : appendData freshParser cs.flatten =
      ⟨(ps.map fun p => p.1 ++ p.2.1).flatten, false, 0, 0⟩ := by
    simp [appendData, freshParser, hcs]
  rw [hst, feedLoop_concat decode ps hps]

/-- Witness for C7 (amended): two records with noise before the first,
chunked across record boundaries, emit exactly the two records. -/
theorem claim_C7_noise_records_witness :
    (∀ p ∈ [((['x'] : List Char), (['{', '}'] : List Char), "{}"),
        (([] : List Char), (['{', 'a', '}'] : List Char), "{a}")],
      NoOpen p.1 ∧ IsRawRecord p.2.1 ∧ decodeStr p.2.1 = some p.2.2) ∧
    (feedMany decodeStr freshParser
        [['x', '{'], ['}', '{', 'a'], ['}']]).1 = ["{}", "{a}"] :=
  ⟨by decide,
   claim_C7_noise_records decodeStr
     [((['x'] : List Char), (['{', '}'] : List Char), "{}"),
      (([] : List Char), (['{', 'a', '}'] : List Char), "{a}")]
     [['x', '{'], ['}', '{', 'a'], ['}']] (by decide) (by decide)⟩

/-! ## Registry lemmas and claims -/

theorem updateFirst_of_find?_none (p : α → Bool) (f : α → α) :
    ∀ (l : List α), l.find? p = none → updateFirst p f l = l := by
  intro l
  induction l with
  | nil => intro _; rfl
  | cons x rest ih =>
    intro h
    rw [List.find?_cons] at h
    cases hp : p x with
    | true => rw [hp] at h; simp at h
    | false =>
      rw [hp] at h
      simp only [updateFirst, hp, Bool.false_eq_true, if_neg, ite_false]
      rw [ih h]

theorem find?_updateFirst_same (p : α → Bool) (f : α → α)
    (hf : ∀ y, p y = true → p (f y) = true) :
    ∀ (l : List α) (x : α), l.find? p = some x →
      (updateFirst p f l).find? p = some (f x) := by
  intro l
  induction l with
  | nil => intro x h; simp at h
  | cons y rest ih =>
    intro x h
    rw [List.find?_cons] at h
    cases hp : p y with
    | true =>
      rw [hp] at h
      simp only [Option.some.injEq] at h
      subst h
      simp only [updateFirst, hp, if_pos]
      rw [List.find?_cons, hf y hp]
    | false =>
      rw [hp] at h
      simp only [updateFirst, hp, Bool.false_eq_true, if_neg, ite_false]
      rw [List.find?_cons, hp]
      exact ih x h

/-- **C8.** Round-trip law: `assignToSession` then `unassign` leaves the
entry with no session key, idle status, zero turn count and no resumable
Claude session id. -/
theorem claim_C8_assign_unassign_roundtrip (reg : List ContainerRegistryEntry)
    (name skey : String) (agentId : Option String) (now1 now2 : Int)
    (h : (reg.find? (fun e => e.containerName == name)).isSome = true) :
    ∃ e, (unassignContainer (assignContainerToSession reg name skey agentId now1)
        name now2).find? (fun e => e.containerName == name) = some e ∧
      e.sessionKey = none ∧ e.status = ContainerStatus.idle ∧
      e.turnCount = 0 ∧ e.claudeSessionId = none := by
  obtain ⟨x, hx⟩ := Option.isSome_iff_exists.mp h
  have hname : ∀ y : ContainerRegistryEntry, (fun e => e.containerName == name) y = true →
      (fun e => e.containerName == name)
        ({ y with sessionKey := some skey, agentId := agentId, lastHeartbeat := now1 }) = true :=
    fun y hy => hy
  have h1 := find?_updateFirst_same (fun e => e.containerName == name)
    (fun e => { e with sessionKey := some skey, agentId := agentId, lastHeartbeat := now1 })
    hname reg x hx
  have hname2 : ∀ y : ContainerRegistryEntry, (fun e => e.containerName == name) y = true →
      (fun e => e.containerName == name)
        ({ y with sessionKey := none, agentId := none, claudeSessionId := none, turnCount := 0, status := ContainerStatus.idle, lastHeartbeat := now2 }) = true :=
    fun y hy => hy
  have h2 := find?_updateFirst_same (fun e : ContainerRegistryEntry => e.containerName == name)
    (fun e : ContainerRegistryEntry => { e with sessionKey := none, agentId := none, claudeSessionId := none, turnCount := 0, status := ContainerStatus.idle, lastHeartbeat := now2 })
    hname2 _ _ h1
  exact ⟨_, h2, rfl, rfl, rfl, rfl⟩

/-- Witness for C8 at a concrete one-entry registry. -/
theorem claim_C8_assign_unassign_roundtrip_witness :
    (([⟨"cid", "c", none, none, ContainerStatus.idle, 0, 0, none, 0, ""⟩] :
        List ContainerRegistryEntry).find?
      (fun e => e.containerName == "c")).isSome = true ∧
    ∃ e, (unassignContainer (assignContainerToSession
        [⟨"cid", "c", none, none, ContainerStatus.idle, 0, 0, none, 0, ""⟩] "c" "s" (some "a") 5)
        "c" 9).find? (fun e => e.containerName == "c") = some e ∧
      e.sessionKey = none ∧ e.status = ContainerStatus.idle ∧
      e.turnCount = 0 ∧ e.claudeSessionId = none :=
  ⟨by decide,
   claim_C8_assign_unassign_roundtrip
     [⟨"cid", "c", none, none, ContainerStatus.idle, 0, 0, none, 0, ""⟩]
     "c" "s" (some "a") 5 9 (by decide)⟩

/-- **C10.** Every name-keyed registry mutation is a silent no-op when no
entry with the given container name exists: the registry value is returned
entirely unchanged (and nothing is thrown — the functions are total). -/
theorem claim_C10_missing_name_noop (reg : List ContainerRegistryEntry)
    (name skey : String) (agentId csid : Option String) (tc : Option Int)
    (status : ContainerStatus) (now : Int)
    (h : reg.find? (fun e => e.containerName == name) = none) :
    assignContainerToSession reg name skey agentId now = reg ∧
    unassignContainer reg name now = reg ∧
    updateContainerStatus reg name status now = reg ∧
    updateContainerHeartbeat reg name csid tc now = reg :=
  ⟨updateFirst_of_find?_none _ _ reg h, updateFirst_of_find?_none _ _ reg h,
   updateFirst_of_find?_none _ _ reg h, updateFirst_of_find?_none _ _ reg h⟩

/-- Witness for C10: a registry whose single entry has a different name. -/
theorem claim_C10_missing_name_noop_witness :
    ((([⟨"cid", "other", none, none, ContainerStatus.idle, 0, 0, none, 0, ""⟩] :
        List ContainerRegistryEntry).find? (fun e => e.containerName == "c")) = none) ∧
    assignContainerToSession
        [⟨"cid", "other", none, none, ContainerStatus.idle, 0, 0, none, 0, ""⟩]
        "c" "s" none 5 =
      [⟨"cid", "other", none, none, ContainerStatus.idle, 0, 0, none, 0, ""⟩] :=
  ⟨by decide,
   (claim_C10_missing_name_noop
     [⟨"cid", "other", none, none, ContainerStatus.idle, 0, 0, none, 0, ""⟩]
     "c" "s" none none none ContainerStatus.idle 5 (by decide)).1⟩

/-! ## Configuration validation claims -/

/-- **C4 counterexample.** A configuration with `maxPerAgent = 20 >
10 = maxTotal` and every implemented check satisfied is reported valid:
`validateDockerCCConfig` never compares `maxPerAgent` against `maxTotal`. -/
theorem claim_C4_counterexample :
    (⟨true, ⟨0, 10, 20⟩, "img", ⟨"4g", 2, 256⟩, ⟨300000, 3600000, 10000, 30000⟩,
        ⟨none, "p:"⟩, ⟨"cc-", "net", [], [], none, none⟩⟩ :
      DockerCCPoolConfig).pool.maxPerAgent >
      (⟨true, ⟨0, 10, 20⟩, "img", ⟨"4g", 2, 256⟩, ⟨300000, 3600000, 10000, 30000⟩,
        ⟨none, "p:"⟩, ⟨"cc-", "net", [], [], none, none⟩⟩ :
      DockerCCPoolConfig).pool.maxTotal ∧
    (validateDockerCCConfig
      ⟨true, ⟨0, 10, 20⟩, "img", ⟨"4g", 2, 256⟩, ⟨300000, 3600000, 10000, 30000⟩,
        ⟨none, "p:"⟩, ⟨"cc-", "net", [], [], none, none⟩⟩).valid = true := by
  constructor
  · norm_num
  · norm_num [validateDockerCCConfig]
    decide

/-- **C4 (amended).** Configuration validation enforces two of the three cap
constraints: `validateDockerCCConfig` returns `valid = false` (with the
corresponding error message) whenever `minWarm > maxTotal` and whenever
`pidsLimit < 10`; `maxPerAgent` is only checked to be at least 1, never
against `maxTotal`. -/
theorem claim_C4_validation_caps (config : DockerCCPoolConfig) :
    (config.pool.minWarm > config.pool.maxTotal →
      (validateDockerCCConfig config).valid = false ∧
        "pool.minWarm cannot exceed pool.maxTotal" ∈ (validateDockerCCConfig config).errors) ∧
    (config.resources.pidsLimit < 10 →
      (validateDockerCCConfig config).valid = false ∧
        "resources.pidsLimit must be at least 10" ∈ (validateDockerCCConfig config).errors) := by
  constructor
  · intro h
    have hmem : "pool.minWarm cannot exceed pool.maxTotal" ∈
        (validateDockerCCConfig config).errors := by
      simp only [validateDockerCCConfig, List.mem_append]
      simp [h]
    refine ⟨?_, hmem⟩
    have hv : (validateDockerCCConfig config).valid =
        (validateDockerCCConfig config).errors.isEmpty := rfl
    rw [hv]
    exact List.isEmpty_eq_false.mpr (List.ne_nil_of_mem hmem)
  · intro h
    have hmem : "resources.pidsLimit must be at least 10" ∈
        (validateDockerCCConfig config).errors := by
      simp only [validateDockerCCConfig, List.mem_append]
      simp [h]
    refine ⟨?_, hmem⟩
    have hv : (validateDockerCCConfig config).valid =
        (validateDockerCCConfig config).errors.isEmpty := rfl
    rw [hv]
    exact List.isEmpty_eq_false.mpr (List.ne_nil_of_mem hmem)

/-- Witness for C4 (amended) at a configuration violating both enforced
caps. -/
theorem claim_C4_validation_caps_witness :
    ((5 : Int) > 1 ∧ (5 : Int) < 10) ∧
    (validateDockerCCConfig
      ⟨true, ⟨5, 1, 1⟩, "img", ⟨"4g", 2, 5⟩, ⟨300000, 3600000, 10000, 30000⟩,
        ⟨none, "p:"⟩, ⟨"cc-", "net", [], [], none, none⟩⟩).valid = false :=
  ⟨⟨by norm_num, by norm_num⟩,
   ((claim_C4_validation_caps
      ⟨true, ⟨5, 1, 1⟩, "img", ⟨"4g", 2, 5⟩, ⟨300000, 3600000, 10000, 30000⟩,
        ⟨none, "p:"⟩, ⟨"cc-", "net", [], [], none, none⟩⟩).1 (by norm_num)).1⟩

/-! ## Per-container health claims -/

/-- **C3 counterexample.** A state record that exists with status `idle` but
no heartbeat field is reported *healthy* and *not stale* by
`checkContainer` (its `isStale` computation treats a missing age as fresh),
whereas the claim requires every record with an absent heartbeat to be
unhealthy.  (The sibling helper `isHeartbeatStale` in `health.ts` treats an
absent timestamp as stale, so the inline logic even disagrees with its own
module.) -/
theorem claim_C3_counterexample :
    (checkContainer 1000 123456
      (some ⟨"s", ContainerStatus.idle, none, none, 0⟩)).healthy = true ∧
    (checkContainer 1000 123456
      (some ⟨"s", ContainerStatus.idle, none, none, 0⟩)).isStale = false := by
  decide

/-- **C3 (amended).** `checkContainer` reports healthy exactly when the
state record exists, its status is `idle` or `running`, and its heartbeat,
*when present*, is at most `3 × healthIntervalMs` old (an absent heartbeat
field counts as not stale; staleness requires age strictly greater than the
threshold).  Absence of the state record always yields unhealthy and
stale. -/
theorem claim_C3_checkContainer_health (healthIntervalMs now : Int)
    (state : Option ContainerHealthStatus) :
    ((checkContainer healthIntervalMs now state).healthy = true ↔
      ∃ st, state = some st ∧
        (st.status = ContainerStatus.idle ∨ st.status = ContainerStatus.running) ∧
        (∀ t ∈ st.lastHeartbeat, now - t ≤ healthIntervalMs * 3)) ∧
    (state = none →
      (checkContainer healthIntervalMs now state).healthy = false ∧
      (checkContainer healthIntervalMs now state).isStale = true) := by
  constructor
  · cases state with
    | none => simp [checkContainer]
    | some st =>
      cases hhb : st.lastHeartbeat with
      | none =>
        simp [checkContainer, hhb]
      | some t =>
        simp [checkContainer, hhb]
  · intro h
    subst h
    exact ⟨rfl, rfl⟩

/-- Witness for C3 (amended): the absent-record branch at a concrete call. -/
theorem claim_C3_checkContainer_health_witness :
    (checkContainer 1000 7 none).healthy = false ∧
    (checkContainer 1000 7 none).isStale = true :=
  (claim_C3_checkContainer_health 1000 7 none).2 rfl

/-! ## Runner timeout claims -/

/-- **C9.** If no terminal result and no terminal session state appears over
the whole polling window, `waitForResult` returns `none`, and the runner's
result translation produces a null result with zero-filled usage (and zero
duration, exit code 0) instead of raising an error. -/
theorem claim_C9_timeout_null_result (polls : List PollObservation)
    (csid : Option String)
    (h : ∀ p ∈ polls, p.result = none ∧
      p.state.map (·.status) ≠ some ContainerStatus.stopped ∧
      p.state.map (·.status) ≠ some ContainerStatus.failed) :
    waitForResult polls = none ∧
    (buildRunResult (waitForResult polls) csid).result = none ∧
    (buildRunResult (waitForResult polls) csid).usage = ⟨0, 0⟩ ∧
    (buildRunResult (waitForResult polls) csid).duration_ms = 0 ∧
    (buildRunResult (waitForResult polls) csid).exit_code = 0 := by
  have hwait : waitForResult polls = none := by
    induction polls with
    | nil => rfl
    | cons p rest ih =>
      obtain ⟨hres, hstop, hfail⟩ := h p (List.mem_cons_self p rest)
      have hterm : ¬(p.state.map (·.status) = some ContainerStatus.stopped ∨
          p.state.map (·.status) = some ContainerStatus.failed) := by
        intro hc
        cases hc with
        | inl hc => exact hstop hc
        | inr hc => exact hfail hc
      simp only [waitForResult, hres, if_neg hterm]
      exact ih (fun q hq => h q (List.mem_cons_of_mem p hq))
  rw [hwait]
  exact ⟨rfl, rfl, rfl, rfl, rfl⟩

/-- Witness for C9: one non-terminal poll observation, then the deadline. -/
theorem claim_C9_timeout_null_result_witness :
    (∀ p ∈ [(⟨none, some ⟨"s", ContainerStatus.running, some 5, none, 0⟩, none⟩ :
        PollObservation)], p.result = none ∧
      p.state.map (·.status) ≠ some ContainerStatus.stopped ∧
      p.state.map (·.status) ≠ some ContainerStatus.failed) ∧
    waitForResult [⟨none, some ⟨"s", ContainerStatus.running, some 5, none, 0⟩, none⟩] = none :=
  ⟨by decide,
   (claim_C9_timeout_null_result
     [⟨none, some ⟨"s", ContainerStatus.running, some 5, none, 0⟩, none⟩]
     none (by decide)).1⟩

/-! ## Slugification claims -/

theorem collapseDashes_chain' :
    ∀ (l : List Char), List.Chain' noDashPair (collapseDashes l) := by
  intro l
  induction l with
  | nil => exact List.chain'_nil
  | cons c rest ih =>
    by_cases h : c = '-' ∧ (collapseDashes rest).head? = some '-'
    · simp only [collapseDashes, if_pos h]
      exact ih
    · simp only [collapseDashes, if_neg h]
      refine List.chain'_cons'.mpr ⟨?_, ih⟩
      intro b hb
      intro ⟨hc, hbd⟩
      exact h ⟨hc, by rw [hb, hbd]⟩

theorem chain'_tail_of_chain' {R : Char → Char → Prop} :
    ∀ {l : List Char}, List.Chain' R l → List.Chain' R l.tail := by
  intro l h
  cases l with
  | nil => exact h
  | cons a l => exact (List.chain'_cons'.mp h).2

theorem chain'_dropWhile {p : Char → Bool} :
    ∀ (l : List Char), List.Chain' noDashPair l →
      List.Chain' noDashPair (l.dropWhile p) := by
  intro l
  induction l with
  | nil => intro h; exact h
  | cons a l ih =>
    intro h
    rw [List.dropWhile_cons]
    by_cases hp : p a = true
    · rw [if_pos hp]
      exact ih (List.chain'_cons'.mp h).2
    · rw [if_neg hp]
      exact h

theorem stripLeadDash_eq_dropWhile :
    ∀ (l : List Char), List.Chain' noDashPair l →
      stripLeadDash l = l.dropWhile (· = '-') := by
  intro l h
  cases l with
  | nil => rfl
  | cons c rest =>
    by_cases hc : c = '-'
    · simp only [stripLeadDash, if_pos hc]
      rw [List.dropWhile_cons, if_pos (by simp [hc])]
      cases rest with
      | nil => rfl
      | cons b t =>
        have hb : ¬(c = '-' ∧ b = '-') :=
          (List.chain'_cons'.mp h).1 b rfl
        have hbd : ¬ b = '-' := fun hbd => hb ⟨hc, hbd⟩
        rw [List.dropWhile_cons, if_neg (by simp [hbd])]
    · simp only [stripLeadDash, if_neg hc]
      rw [List.dropWhile_cons, if_neg (by simp [hc])]

theorem chain'_noDashPair_reverse :
    ∀ (l : List Char), List.Chain' noDashPair l →
      List.Chain' noDashPair l.reverse := by
  intro l h
  rw [List.chain'_reverse]
  exact h.imp (fun a b hab => fun ⟨hb, ha⟩ => hab ⟨ha, hb⟩)

/-- The source slug (strip one leading and one trailing dash after the
collapse) equals the spec's slug (strip all leading and trailing dashes):
after collapsing, runs of dashes have length one. -/
theorem sourceSlug_eq_specSlug (key : List Char) : sourceSlug key = specSlug key := by
  unfold sourceSlug specSlug
  have hC := collapseDashes_chain' ((key.map jsToLower).map dashify)
  rw [stripLeadDash_eq_dropWhile _ hC]
  have hC1 := chain'_dropWhile (p := (· = '-')) _ hC
  unfold stripTrailDash
  rw [stripLeadDash_eq_dropWhile _ (chain'_noDashPair_reverse _ hC1)]

theorem toInt32_bound (n : Int) : -2147483648 ≤ toInt32 n ∧ toInt32 n < 2147483648 := by
  unfold toInt32
  have h1 : 0 ≤ n % 4294967296 := Int.emod_nonneg n (by norm_num)
  have h2 : n % 4294967296 < 4294967296 := Int.emod_lt_of_pos n (by norm_num)
  split <;> omega

theorem foldl_simpleHashStep_bound :
    ∀ (us : List Nat) (h : Int), -2147483648 ≤ h → h < 2147483648 →
      -2147483648 ≤ us.foldl simpleHashStep h ∧
        us.foldl simpleHashStep h < 2147483648 := by
  intro us
  induction us with
  | nil => intro h h1 h2; exact ⟨h1, h2⟩
  | cons c us ih =>
    intro h _ _
    rw [List.foldl_cons]
    have hb := toInt32_bound (toInt32 (h * 32) - h + c)
    exact ih (simpleHashStep h c) hb.1 hb.2

theorem simpleHash_lt (s : List Char) : simpleHash s < 4294967296 := by
  unfold simpleHash
  have := foldl_simpleHashStep_bound (stringCodeUnits s) 0 (by norm_num) (by norm_num)
  omega

theorem natToHexAux_length :
    ∀ (fuel n k : Nat), n < 16 ^ k → k ≤ fuel → (natToHexAux fuel n).length ≤ k := by
  intro fuel
  induction fuel with
  | zero => intro n k _ _; simp [natToHexAux]
  | succ fuel ih =>
    intro n k hn hk
    by_cases h0 : n = 0
    · simp [natToHexAux, h0]
    · have hk1 : 1 ≤ k := by
        by_contra h
        have : k = 0 := by omega
        subst this
        simp at hn
        omega
      simp only [natToHexAux, if_neg h0, List.length_append, List.length_cons,
        List.length_nil]
      have hdiv : n / 16 < 16 ^ (k - 1) := by
        have h16 : 16 ^ k = 16 ^ (k - 1) * 16 := by
          conv_lhs => rw [show k = (k - 1) + 1 by omega]
          rw [pow_succ]
        rw [Nat.div_lt_iff_lt_mul (by norm_num)]
        omega
      have := ih (n / 16) (k - 1) hdiv (by omega)
      omega

theorem natToHexAux_mem_hexChars :
    ∀ (fuel n : Nat), ∀ c ∈ natToHexAux fuel n, c ∈ hexChars := by
  intro fuel
  induction fuel with
  | zero => intro n c hc; simp [natToHexAux] at hc
  | succ fuel ih =>
    intro n c hc
    by_cases h0 : n = 0
    · simp [natToHexAux, h0] at hc
    · simp only [natToHexAux, if_neg h0, List.mem_append, List.mem_cons,
        List.not_mem_nil, or_false] at hc
      cases hc with
      | inl hc => exact ih (n / 16) c hc
      | inr hc =>
        subst hc
        have h16 : n % 16 < 16 := Nat.mod_lt _ (by norm_num)
        revert h16
        have : ∀ m, m < 16 → hexDigitChar m ∈ hexChars := by decide
        exact this (n % 16)

theorem natToHex_length_le (n : Nat) (hn : n < 4294967296) : (natToHex n).length ≤ 8 := by
  unfold natToHex
  by_cases h0 : n = 0
  · simp [h0]
  · rw [if_neg h0]
    exact natToHexAux_length 9 n 8 (by norm_num at hn ⊢; omega) (by norm_num)

theorem natToHex_ne_nil (n : Nat) : natToHex n ≠ [] := by
  unfold natToHex
  by_cases h0 : n = 0
  · simp [h0]
  · rw [if_neg h0]
    show natToHexAux (8 + 1) n ≠ []
    simp [natToHexAux, h0]

/-- **C5 counterexample.** The fingerprint is not always 8 hexadecimal
characters: for the key `"a"` the hash is `97 = 0x61`, so the derived name is
`"a-61"` with a 2-character fingerprint — no suffix of length 8 exists. -/
theorem claim_C5_counterexample :
    slugifySessionKey ['a'] = ['a', '-', '6', '1'] ∧
      ¬ ∃ (slug fp : List Char),
        slugifySessionKey ['a'] = slug ++ fp ∧ fp.length = 8 := by
  constructor
  · decide
  · rintro ⟨slug, fp, heq, hlen⟩
    have h4 : (slugifySessionKey ['a']).length = 4 := by decide
    rw [heq, List.length_append, hlen] at h4
    omega

/-- **C5 (amended).** For every session key, the derived name is the key
lowercased with each maximal run of non-alphanumerics replaced by a single
dash, leading and trailing dashes stripped, truncated to 32 characters
(`specSlug`, worded from the spec), followed by a dash and a stable
fingerprint of the original key consisting of *at most* 8 (and at least 1)
lowercase hexadecimal characters; the derivation is deterministic. -/
theorem claim_C5_slugify_shape (key : List Char) :
    slugifySessionKey key = specSlug key ++ '-' :: hashSuffix key ∧
    1 ≤ (hashSuffix key).length ∧ (hashSuffix key).length ≤ 8 ∧
    (∀ c ∈ hashSuffix key, c ∈ hexChars) ∧
    (∀ key2, key = key2 → slugifySessionKey key = slugifySessionKey key2) := by
  refine ⟨?_, ?_, ?_, ?_, ?_⟩
  · unfold slugifySessionKey
    rw [sourceSlug_eq_specSlug]
  · unfold hashSuffix
    have hne := natToHex_ne_nil (simpleHash key)
    have hpos := List.length_pos.mpr hne
    rw [List.length_take]
    omega
  · unfold hashSuffix
    rw [List.length_take]
    omega
  · intro c hc
    have hmem := List.take_subset 8 (natToHex (simpleHash key)) hc
    unfold natToHex at hmem
    by_cases h0 : simpleHash key = 0
    · rw [if_pos h0] at hmem
      simp at hmem
      subst hmem
      decide
    · rw [if_neg h0] at hmem
      exact natToHexAux_mem_hexChars 9 _ c hmem
  · intro key2 h
    rw [h]

/-- Witness for C5 (amended), discharging the determinism hypothesis at a
concrete key. -/
theorem claim_C5_slugify_shape_witness :
    slugifySessionKey ['a'] = specSlug ['a'] ++ '-' :: hashSuffix ['a'] ∧
      slugifySessionKey ['a'] = slugifySessionKey ['a'] :=
  ⟨(claim_C5_slugify_shape ['a']).1,
   (claim_C5_slugify_shape ['a']).2.2.2.2 ['a'] rfl⟩

/-! ## Pool-manager lemmas: association-list maps and sets -/

theorem mapGet_eq_some_of_mem {β : Type} {m : List (String × β)} {k : String} {v : β}
    (hnd : (m.map (·.1)).Nodup) (hm : (k, v) ∈ m) : mapGet m k = some v := by
  induction m with
  | nil => simp at hm
  | cons p rest ih =>
    rw [List.map_cons, List.nodup_cons] at hnd
    cases hm with
    | head =>
      unfold mapGet
      rw [List.find?_cons_of_pos _ (by simp)]
      rfl
    | tail _ hm =>
      have hk : ¬ p.1 = k := by
        intro h
        exact hnd.1 (h ▸ List.mem_map_of_mem (·.1) hm)
      unfold mapGet
      rw [List.find?_cons_of_neg _ (by simpa using hk)]
      exact ih hnd.2 hm

theorem mem_of_mapGet_eq_some {β : Type} {m : List (String × β)} {k : String} {v : β}
    (h : mapGet m k = some v) : (k, v) ∈ m := by
  induction m with
  | nil => simp [mapGet] at h
  | cons p rest ih =>
    by_cases hk : p.1 = k
    · unfold mapGet at h
      rw [List.find?_cons_of_pos _ (by simpa using hk)] at h
      have hv : p.2 = v := by simpa using h
      have hpv : (k, v) = p := Prod.ext (by simpa using hk.symm) (by simpa using hv.symm)
      rw [hpv]
      exact List.mem_cons_self p rest
    · unfold mapGet at h
      rw [List.find?_cons_of_neg _ (by simpa using hk)] at h
      exact List.mem_cons_of_mem p (ih h)

theorem mapGet_none_iff {β : Type} {m : List (String × β)} {k : String} :
    mapGet m k = none ↔ ∀ p ∈ m, ¬ p.1 = k := by
  induction m with
  | nil => simp [mapGet]
  | cons p rest ih =>
    by_cases hk : p.1 = k
    · constructor
      · intro h
        unfold mapGet at h
        rw [List.find?_cons_of_pos _ (by simpa using hk)] at h
        simp at h
      · intro h
        exact absurd hk (h p (List.mem_cons_self p rest))
    · constructor
      · intro h q hq
        unfold mapGet at h
        rw [List.find?_cons_of_neg _ (by simpa using hk)] at h
        cases hq with
        | head => exact hk
        | tail _ hq => exact ih.mp h q hq
      · intro h
        unfold mapGet
        rw [List.find?_cons_of_neg _ (by simpa using hk)]
        exact ih.mpr (fun q hq => h q (List.mem_cons_of_mem p hq))

theorem mapGet_mapSet_self {β : Type} (m : List (String × β)) (k : String) (v : β) :
    mapGet (mapSet m k v) k = some v := by
  induction m with
  | nil =>
    unfold mapSet mapGet
    rw [List.find?_cons_of_pos _ (by simp)]
    rfl
  | cons p rest ih =>
    by_cases hp : p.1 = k
    · simp only [mapSet, if_pos hp]
      unfold mapGet
      rw [List.find?_cons_of_pos _ (by simp)]
      rfl
    · simp only [mapSet, if_neg hp]
      unfold mapGet
      rw [List.find?_cons_of_neg _ (by simpa using hp)]
      exact ih

theorem mapGet_mapSet_ne {β : Type} (m : List (String × β)) (k k' : String) (v : β)
    (h : ¬ k' = k) : mapGet (mapSet m k v) k' = mapGet m k' := by
  have hkk : ¬ k = k' := fun hh => h hh.symm
  induction m with
  | nil =>
    unfold mapSet mapGet
    rw [List.find?_cons_of_neg _ (by simpa using hkk)]
  | cons p rest ih =>
    by_cases hp : p.1 = k
    · simp only [mapSet, if_pos hp]
      unfold mapGet
      rw [List.find?_cons_of_neg _ (by simpa using hkk),
        List.find?_cons_of_neg _ (by simpa using hp ▸ hkk)]
    · simp only [mapSet, if_neg hp]
      by_cases hpk : p.1 = k'
      · unfold mapGet
        rw [List.find?_cons_of_pos _ (by simpa using hpk),
          List.find?_cons_of_pos _ (by simpa using hpk)]
      · unfold mapGet
        rw [List.find?_cons_of_neg _ (by simpa using hpk),
          List.find?_cons_of_neg _ (by simpa using hpk)]
        exact ih

theorem mem_mapSet {β : Type} {m : List (String × β)} {k : String} {v : β} {p : String × β}
    (hnd : (m.map (·.1)).Nodup) (hp : p ∈ mapSet m k v) :
    p = (k, v) ∨ (p ∈ m ∧ ¬ p.1 = k) := by
  induction m with
  | nil =>
    simp only [mapSet, List.mem_cons, List.not_mem_nil, or_false] at hp
    exact Or.inl hp
  | cons q rest ih =>
    rw [List.map_cons, List.nodup_cons] at hnd
    by_cases hq : q.1 = k
    · simp only [mapSet, if_pos hq, List.mem_cons] at hp
      cases hp with
      | inl h => exact Or.inl h
      | inr h =>
        have hpk : ¬ p.1 = k := by
          intro hpk
          exact hnd.1 (hq ▸ hpk ▸ List.mem_map_of_mem (·.1) h)
        exact Or.inr ⟨List.mem_cons_of_mem q h, hpk⟩
    · simp only [mapSet, if_neg hq, List.mem_cons] at hp
      cases hp with
      | inl h =>
        rw [h]
        exact Or.inr ⟨List.mem_cons_self q rest, hq⟩
      | inr h =>
        cases ih hnd.2 h with
        | inl h => exact Or.inl h
        | inr h => exact Or.inr ⟨List.mem_cons_of_mem q h.1, h.2⟩

theorem mem_mapDelete {β : Type} {m : List (String × β)} {k : String} {p : String × β} :
    p ∈ mapDelete m k ↔ p ∈ m ∧ ¬ p.1 = k := by
  unfold mapDelete
  rw [List.mem_filter]
  simp

theorem mapGet_mapDelete_self {β : Type} (m : List (String × β)) (k : String) :
    mapGet (mapDelete m k) k = none := by
  rw [mapGet_none_iff]
  intro p hp
  exact (mem_mapDelete.mp hp).2

theorem mapGet_mapDelete_ne {β : Type} (m : List (String × β)) (k k' : String)
    (h : ¬ k' = k) : mapGet (mapDelete m k) k' = mapGet m k' := by
  induction m with
  | nil => rfl
  | cons p rest ih =>
    unfold mapDelete at *
    rw [List.filter_cons]
    by_cases hp : p.1 = k
    · rw [if_neg (by simpa using hp)]
      unfold mapGet
      rw [List.find?_cons_of_neg _ (by simp [hp]; intro hh; exact h hh.symm)]
      exact ih
    · rw [if_pos (by simpa using hp)]
      by_cases hpk : p.1 = k'
      · unfold mapGet
        rw [List.find?_cons_of_pos _ (by simpa using hpk),
          List.find?_cons_of_pos _ (by simpa using hpk)]
      · unfold mapGet
        rw [List.find?_cons_of_neg _ (by simpa using hpk),
          List.find?_cons_of_neg _ (by simpa using hpk)]
        exact ih

theorem keys_mapSet_nodup {β : Type} {m : List (String × β)} (k : String) (v : β)
    (hnd : (m.map (·.1)).Nodup) : ((mapSet m k v).map (·.1)).Nodup := by
  induction m with
  | nil => simp [mapSet]
  | cons p rest ih =>
    rw [List.map_cons, List.nodup_cons] at hnd
    by_cases hp : p.1 = k
    · simp only [mapSet, if_pos hp, List.map_cons, List.nodup_cons]
      exact ⟨hp ▸ hnd.1, hnd.2⟩
    · simp only [mapSet, if_neg hp, List.map_cons, List.nodup_cons]
      constructor
      · intro hmem
        obtain ⟨q, hq, hq1⟩ := List.mem_map.mp hmem
        cases mem_mapSet hnd.2 hq with
        | inl h => rw [h] at hq1; exact hp hq1.symm
        | inr h => exact hnd.1 (hq1 ▸ List.mem_map_of_mem (·.1) h.1)
      · exact ih hnd.2

theorem keys_mapDelete_nodup {β : Type} {m : List (String × β)} (k : String)
    (hnd : (m.map (·.1)).Nodup) : ((mapDelete m k).map (·.1)).Nodup := by
  unfold mapDelete
  exact hnd.sublist (List.Sublist.map _ (List.filter_sublist m))

theorem mem_setAdd {l : List String} {x y : String} :
    y ∈ setAdd l x ↔ y ∈ l ∨ y = x := by
  unfold setAdd
  by_cases h : x ∈ l
  · rw [if_pos h]
    constructor
    · exact Or.inl
    · intro hy
      cases hy with
      | inl hy => exact hy
      | inr hy => exact hy ▸ h
  · rw [if_neg h]
    simp

theorem setAdd_nodup {l : List String} (x : String) (hnd : l.Nodup) :
    (setAdd l x).Nodup := by
  unfold setAdd
  by_cases h : x ∈ l
  · rw [if_pos h]; exact hnd
  · rw [if_neg h]
    simp [List.nodup_append, hnd, h]

theorem mem_setDelete {l : List String} {x y : String} :
    y ∈ setDelete l x ↔ y ∈ l ∧ ¬ y = x := by
  unfold setDelete
  rw [List.mem_filter]
  simp

theorem setDelete_nodup {l : List String} (x : String) (hnd : l.Nodup) :
    (setDelete l x).Nodup :=
  hnd.sublist (List.filter_sublist l)

/-- Generic left-fold invariant. -/
theorem foldl_invariant {σ α : Type} (Inv : σ → Prop) (step : σ → α → σ) :
    ∀ (l : List α) (init : σ), Inv init →
      (∀ acc x, x ∈ l → Inv acc → Inv (step acc x)) →
      Inv (l.foldl step init) := by
  intro l
  induction l with
  | nil => intro init h _; exact h
  | cons x rest ih =>
    intro init h hstep
    rw [List.foldl_cons]
    exact ih (step init x) (hstep init x (List.mem_cons_self x rest) h)
      (fun acc y hy => hstep acc y (List.mem_cons_of_mem x hy))

theorem mem_updateFirst {p : α → Bool} {f : α → α} :
    ∀ {l : List α} {y : α}, y ∈ updateFirst p f l →
      y ∈ l ∨ ∃ x ∈ l, p x = true ∧ y = f x := by
  intro l
  induction l with
  | nil => intro y hy; exact absurd hy (List.not_mem_nil y)
  | cons a rest ih =>
    intro y hy
    by_cases hp : p a = true
    · simp only [updateFirst, if_pos hp, List.mem_cons] at hy
      cases hy with
      | inl h => exact Or.inr ⟨a, List.mem_cons_self a rest, hp, h⟩
      | inr h => exact Or.inl (List.mem_cons_of_mem a h)
    · simp only [updateFirst, if_neg hp, List.mem_cons] at hy
      cases hy with
      | inl h => exact Or.inl (h ▸ List.mem_cons_self a rest)
      | inr h =>
        cases ih h with
        | inl hh => exact Or.inl (List.mem_cons_of_mem a hh)
        | inr hh =>
          obtain ⟨x, hx, hpx, hyx⟩ := hh
          exact Or.inr ⟨x, List.mem_cons_of_mem a hx, hpx, hyx⟩

theorem exists_mem_updateFirst {p : α → Bool} {f : α → α} :
    ∀ {l : List α} {x : α}, x ∈ l →
      x ∈ updateFirst p f l ∨ (p x = true ∧ f x ∈ updateFirst p f l) := by
  intro l
  induction l with
  | nil => intro x hx; exact absurd hx (List.not_mem_nil x)
  | cons a rest ih =>
    intro x hx
    by_cases hp : p a = true
    · simp only [updateFirst, if_pos hp]
      cases hx with
      | head => exact Or.inr ⟨hp, List.mem_cons_self _ _⟩
      | tail _ hx => exact Or.inl (List.mem_cons_of_mem _ hx)
    · simp only [updateFirst, if_neg hp]
      cases hx with
      | head => exact Or.inl (List.mem_cons_self _ _)
      | tail _ hx =>
        cases ih hx with
        | inl h => exact Or.inl (List.mem_cons_of_mem _ h)
        | inr h => exact Or.inr ⟨h.1, List.mem_cons_of_mem _ h.2⟩

theorem updateFirst_map_eq {p : α → Bool} {f : α → α} {g : α → β}
    (hg : ∀ x, g (f x) = g x) :
    ∀ (l : List α), (updateFirst p f l).map g = l.map g := by
  intro l
  induction l with
  | nil => rfl
  | cons a rest ih =>
    by_cases hp : p a = true
    · simp only [updateFirst, if_pos hp, List.map_cons, hg]
    · simp only [updateFirst, if_neg hp, List.map_cons, ih]

theorem containerHasKey_iff {st : PoolState} {name : String} {k : Option String} :
    containerHasKey st name k ↔
      ∃ e, mapGet st.containers name = some e ∧ e.sessionKey = k := by
  unfold containerHasKey
  cases h : mapGet st.containers name <;> simp [h]

theorem sessionMapped_iff {st : PoolState} {name : String} {e : ContainerRegistryEntry} :
    sessionMapped st name e ↔
      ∃ k, e.sessionKey = some k ∧ mapGet st.sessionToContainer k = some name := by
  unfold sessionMapped
  cases h : e.sessionKey <;> simp [h]

/-- Under well-formedness, no container is both session-mapped and warm: a
mapped container's entry carries a session key, a warm one's entry carries
none. -/
theorem poolWF_atMostOne {st : PoolState} {reg : List ContainerRegistryEntry}
    (hwf : poolWF st reg) : poolAtMostOne st := by
  obtain ⟨hndC, _, _, h4, _, _, _, h8, h9⟩ := hwf
  intro p hp ⟨hmap, hwarm⟩
  obtain ⟨k, hk, hmk⟩ := sessionMapped_iff.mp hmap
  obtain ⟨e', he', hke'⟩ := containerHasKey_iff.mp (h9 p.1 hwarm)
  have hpget : mapGet st.containers p.1 = some p.2 := by
    have : (p.1, p.2) ∈ st.containers := by
      exact hp
    exact mapGet_eq_some_of_mem hndC this
  rw [hpget] at he'
  cases he'
  rw [hk] at hke'
  exact Option.noConfusion hke'

theorem removeContainerByName_eq (st : PoolState) (reg : List ContainerRegistryEntry)
    (n : String) :
    removeContainerByName st reg n =
      (⟨mapDelete st.containers n, removedSessionMap st n, setDelete st.warmPool n⟩,
        removeContainerEntry reg n) := by
  cases hget : mapGet st.containers n with
  | none => simp [removeContainerByName, removedSessionMap, hget]
  | some e =>
    cases hsk : e.sessionKey with
    | none => simp [removeContainerByName, removedSessionMap, hget, hsk]
    | some k =>
      by_cases hk : k = "" <;>
        simp [removeContainerByName, removedSessionMap, hget, hsk, hk]

theorem removedSessionMap_eq_of_none {st : PoolState} {n : String}
    (h : (mapGet st.containers n).bind (·.sessionKey) = none) :
    removedSessionMap st n = st.sessionToContainer := by
  unfold removedSessionMap; rw [h]

theorem removedSessionMap_eq_of_some {st : PoolState} {n k : String}
    (h : (mapGet st.containers n).bind (·.sessionKey) = some k) :
    removedSessionMap st n =
      if k = "" then st.sessionToContainer else mapDelete st.sessionToContainer k := by
  unfold removedSessionMap; rw [h]

theorem removedSessionMap_sub {st : PoolState} {n : String} :
    ∀ q ∈ removedSessionMap st n, q ∈ st.sessionToContainer := by
  intro q hq
  cases hb : (mapGet st.containers n).bind (·.sessionKey) with
  | none => rw [removedSessionMap_eq_of_none hb] at hq; exact hq
  | some k =>
    rw [removedSessionMap_eq_of_some hb] at hq
    by_cases hk : k = ""
    · rw [if_pos hk] at hq; exact hq
    · rw [if_neg hk] at hq; exact (mem_mapDelete.mp hq).1

theorem removedSessionMap_nodup {st : PoolState} {n : String}
    (hndS : (st.sessionToContainer.map (·.1)).Nodup) :
    ((removedSessionMap st n).map (·.1)).Nodup := by
  cases hb : (mapGet st.containers n).bind (·.sessionKey) with
  | none => rw [removedSessionMap_eq_of_none hb]; exact hndS
  | some k =>
    rw [removedSessionMap_eq_of_some hb]
    by_cases hk : k = ""
    · rw [if_pos hk]; exact hndS
    · rw [if_neg hk]; exact keys_mapDelete_nodup k hndS

theorem removedSessionMap_not_target {st : PoolState} {reg : List ContainerRegistryEntry}
    {n : String} (hwf : poolWF st reg) :
    ∀ q ∈ removedSessionMap st n, ¬ q.2 = n := by
  obtain ⟨hndC, hndS, hndW, h4, h5, h6, h7, h8, h9⟩ := hwf
  intro q hq hqn
  have hqmem := removedSessionMap_sub q hq
  obtain ⟨hq1, hq2⟩ := h8 q hqmem
  obtain ⟨e', he', hke'⟩ := containerHasKey_iff.mp hq2
  rw [hqn] at he'
  have hb : (mapGet st.containers n).bind (·.sessionKey) = some q.1 := by
    rw [he']; exact hke'
  rw [removedSessionMap_eq_of_some hb, if_neg hq1] at hq
  exact (mem_mapDelete.mp hq).2 rfl

theorem removedSessionMap_keep {st : PoolState} {reg : List ContainerRegistryEntry}
    {n : String} (hwf : poolWF st reg) (hE : poolInvariant st) :
    ∀ (k name : String), mapGet st.sessionToContainer k = some name → ¬ name = n →
      mapGet (removedSessionMap st n) k = some name := by
  have hwf' := hwf
  obtain ⟨hndC, hndS, hndW, h4, h5, h6, h7, h8, h9⟩ := hwf
  intro k name hk hname
  cases hb : (mapGet st.containers n).bind (·.sessionKey) with
  | none => rw [removedSessionMap_eq_of_none hb]; exact hk
  | some k0 =>
    rw [removedSessionMap_eq_of_some hb]
    obtain ⟨e, hget, hsk⟩ := Option.bind_eq_some.mp hb
    by_cases hk0 : k0 = ""
    · rw [if_pos hk0]; exact hk
    · rw [if_neg hk0]
      have hkne : ¬ k = k0 := by
        intro hkk
        subst hkk
        have hmem : (n, e) ∈ st.containers := mem_of_mapGet_eq_some hget
        have hEe := hE (n, e) hmem
        cases hEe.1 with
        | inl hmap =>
          obtain ⟨k1, hk1, hmk1⟩ := sessionMapped_iff.mp hmap
          rw [hsk] at hk1
          cases hk1
          rw [hk] at hmk1
          exact hname (Option.some.inj hmk1)
        | inr hwarm =>
          obtain ⟨e'', he'', hke''⟩ := containerHasKey_iff.mp (h9 n hwarm)
          rw [hget] at he''
          cases he''
          rw [hsk] at hke''
          exact Option.noConfusion hke''
      rw [mapGet_mapDelete_ne _ k0 k hkne]
      exact hk

theorem removedSessionMap_get_sub {st : PoolState} {n : String} :
    ∀ (k name : String), mapGet (removedSessionMap st n) k = some name →
      mapGet st.sessionToContainer k = some name := by
  intro k name h
  cases hb : (mapGet st.containers n).bind (·.sessionKey) with
  | none => rw [removedSessionMap_eq_of_none hb] at h; exact h
  | some k0 =>
    rw [removedSessionMap_eq_of_some hb] at h
    by_cases hk0 : k0 = ""
    · rw [if_pos hk0] at h; exact h
    · rw [if_neg hk0] at h
      by_cases hk : k = k0
      · subst hk
        rw [mapGet_mapDelete_self] at h
        exact Option.noConfusion h
      · rw [mapGet_mapDelete_ne _ k0 k hk] at h
        exact h

/-- `removeContainerByName` preserves well-formedness. -/
theorem removeContainerByName_WF {st : PoolState} {reg : List ContainerRegistryEntry}
    (n : String) (hwf : poolWF st reg) :
    poolWF (removeContainerByName st reg n).1 (removeContainerByName st reg n).2 := by
  rw [removeContainerByName_eq]
  have hwf' := hwf
  obtain ⟨hndC, hndS, hndW, h4, h5, h6, h7, h8, h9⟩ := hwf
  refine ⟨?_, ?_, ?_, ?_, ?_, ?_, ?_, ?_, ?_⟩
  · exact keys_mapDelete_nodup n hndC
  · exact removedSessionMap_nodup hndS
  · exact setDelete_nodup n hndW
  · intro p hp
    exact h4 p (mem_mapDelete.mp hp).1
  · exact h5.sublist (List.Sublist.map _ (List.filter_sublist reg))
  · intro e he
    exact h6 e (List.mem_filter.mp he).1
  · intro p hp
    obtain ⟨hpm, hpn⟩ := mem_mapDelete.mp hp
    obtain ⟨re, hre, hren, hrek⟩ := h7 p hpm
    refine ⟨re, ?_, hren, hrek⟩
    unfold removeContainerEntry
    rw [List.mem_filter]
    exact ⟨hre, by simp [hren, hpn]⟩
  · intro q hq
    have hqm := removedSessionMap_sub q hq
    obtain ⟨hq1, hq2⟩ := h8 q hqm
    refine ⟨hq1, ?_⟩
    obtain ⟨e', he', hke'⟩ := containerHasKey_iff.mp hq2
    rw [containerHasKey_iff]
    refine ⟨e', ?_, hke'⟩
    show mapGet (mapDelete st.containers n) q.2 = some e'
    rw [mapGet_mapDelete_ne _ n q.2 (removedSessionMap_not_target hwf' q hq)]
    exact he'
  · intro w hw
    obtain ⟨hwm, hwn⟩ := mem_setDelete.mp hw
    obtain ⟨e', he', hke'⟩ := containerHasKey_iff.mp (h9 w hwm)
    rw [containerHasKey_iff]
    refine ⟨e', ?_, hke'⟩
    show mapGet (mapDelete st.containers n) w = some e'
    rw [mapGet_mapDelete_ne _ n w hwn]
    exact he'

/-- `removeContainerByName` preserves the pool invariant. -/
theorem removeContainerByName_inv {st : PoolState} {reg : List ContainerRegistryEntry}
    (n : String) (hwf : poolWF st reg) (hE : poolInvariant st) :
    poolInvariant (removeContainerByName st reg n).1 := by
  rw [removeContainerByName_eq]
  intro p hp
  obtain ⟨hpm, hpn⟩ := mem_mapDelete.mp hp
  have hEp := hE p hpm
  constructor
  · cases hEp.1 with
    | inl hmap =>
      left
      obtain ⟨k, hk, hmk⟩ := sessionMapped_iff.mp hmap
      rw [sessionMapped_iff]
      exact ⟨k, hk, removedSessionMap_keep hwf hE k p.1 hmk hpn⟩
    | inr hwarm =>
      right
      exact mem_setDelete.mpr ⟨hwarm, hpn⟩
  · intro ⟨hmap, hwarm⟩
    obtain ⟨k, hk, hmk⟩ := sessionMapped_iff.mp hmap
    exact hEp.2 ⟨sessionMapped_iff.mpr ⟨k, hk, removedSessionMap_get_sub k p.1 hmk⟩,
      (mem_setDelete.mp hwarm).1⟩

/-! ## Assignment step-1 claims -/

/-- **C6 counterexample.** The runtime oracle reports the cached container
as present but *not running*, yet `getContainer` still returns the cached
assignment from step 1: the in-memory fast path never consults the runtime
state. -/
theorem claim_C6_counterexample :
    ((fun _ : String => (⟨true, false⟩ : RuntimeState)) "c").running = false ∧
    getContainer
      ⟨true, ⟨0, 10, 3⟩, "img", ⟨"4g", 2, 256⟩, ⟨300000, 3600000, 10000, 30000⟩,
        ⟨none, "p:"⟩, ⟨"cc-", "net", [], [], none, none⟩⟩
      (fun _ => ⟨true, false⟩) none 0
      ⟨[("c", ⟨"cid", "c", some "s", none, ContainerStatus.running, 0, 0, none, 0, ""⟩)],
        [("s", "c")], []⟩
      [⟨"cid", "c", some "s", none, ContainerStatus.running, 0, 0, none, 0, ""⟩]
      ⟨"s", none, "w"⟩ =
      Except.ok (⟨"c", "cid", false, false⟩,
        ⟨[("c", ⟨"cid", "c", some "s", none, ContainerStatus.running, 0, 0, none, 0, ""⟩)],
          [("s", "c")], []⟩,
        [⟨"cid", "c", some "s", none, ContainerStatus.running, 0, 0, none, 0, ""⟩]) :=
  ⟨rfl, rfl⟩

/-- **C6 (amended).** Assignment step 1 performs *no* liveness check:
whenever the in-memory session map holds a truthy container name for the
requested session key and the in-memory container map holds an entry under
that name, `getContainer` returns that cached assignment unchanged under
*every* runtime oracle, including one reporting the container absent or
stopped. -/
theorem claim_C6_cached_no_liveness (cfg : DockerCCPoolConfig)
    (docker : String → RuntimeState) (createResult : Option (String × String)) (now : Int)
    (st : PoolState) (reg : List ContainerRegistryEntry) (p : GetContainerParams)
    (name : String) (entry : ContainerRegistryEntry)
    (hs2c : mapGet st.sessionToContainer p.sessionKey = some name)
    (hne : ¬ name = "")
    (hentry : mapGet st.containers name = some entry) :
    getContainer cfg docker createResult now st reg p =
      Except.ok (⟨name, entry.containerId, false, false⟩, st, reg) := by
  unfold getContainer
  simp only [hs2c, if_neg hne, hentry]

/-- Witness for C6 (amended): the cached fast path fires at a concrete state
even though the oracle says the container does not exist. -/
theorem claim_C6_cached_no_liveness_witness :
    mapGet ((⟨[("c", ⟨"cid", "c", some "s", none, ContainerStatus.running, 0, 0, none, 0,
        ""⟩)], [("s", "c")], []⟩ : PoolState)).sessionToContainer "s" = some "c" ∧
    getContainer
      ⟨true, ⟨0, 10, 3⟩, "img", ⟨"4g", 2, 256⟩, ⟨300000, 3600000, 10000, 30000⟩,
        ⟨none, "p:"⟩, ⟨"cc-", "net", [], [], none, none⟩⟩
      (fun _ => ⟨false, false⟩) none 0
      ⟨[("c", ⟨"cid", "c", some "s", none, ContainerStatus.running, 0, 0, none, 0, ""⟩)],
        [("s", "c")], []⟩
      [⟨"cid", "c", some "s", none, ContainerStatus.running, 0, 0, none, 0, ""⟩]
      ⟨"s", none, "w"⟩ =
      Except.ok (⟨"c", "cid", false, false⟩,
        ⟨[("c", ⟨"cid", "c", some "s", none, ContainerStatus.running, 0, 0, none, 0, ""⟩)],
          [("s", "c")], []⟩,
        [⟨"cid", "c", some "s", none, ContainerStatus.running, 0, 0, none, 0, ""⟩]) :=
  ⟨by decide,
   claim_C6_cached_no_liveness
     ⟨true, ⟨0, 10, 3⟩, "img", ⟨"4g", 2, 256⟩, ⟨300000, 3600000, 10000, 30000⟩,
       ⟨none, "p:"⟩, ⟨"cc-", "net", [], [], none, none⟩⟩
     (fun _ => ⟨false, false⟩) none 0
     ⟨[("c", ⟨"cid", "c", some "s", none, ContainerStatus.running, 0, 0, none, 0, ""⟩)],
       [("s", "c")], []⟩
     [⟨"cid", "c", some "s", none, ContainerStatus.running, 0, 0, none, 0, ""⟩]
     ⟨"s", none, "w"⟩ "c"
     ⟨"cid", "c", some "s", none, ContainerStatus.running, 0, 0, none, 0, ""⟩
     (by decide) (by decide) (by decide)⟩

/-! ## Pool-invariant claims -/

/-- **C2 counterexample.** A healthy-looking pool (one container mapped from
its session key) is broken by one health tick: the container's heartbeat is
stale but the runtime still reports it present and running, so the tick marks
it failed and severs its session mapping while leaving it in the in-memory
container map — the container is then neither mapped nor warm. -/
theorem claim_C2_counterexample :
    poolInvariant
      (⟨[("c", ⟨"cid", "c", some "s", none, ContainerStatus.running, 0, 0, none, 0, ""⟩)],
        [("s", "c")], []⟩ : PoolState) ∧
    ¬ poolInvariant
      (checkHealth
        ⟨true, ⟨0, 10, 3⟩, "img", ⟨"4g", 2, 256⟩, ⟨300000, 3600000, 1, 30000⟩,
          ⟨none, "p:"⟩, ⟨"cc-", "net", [], [], none, none⟩⟩
        (fun _ => ⟨true, true⟩) 100
        ⟨[("c", ⟨"cid", "c", some "s", none, ContainerStatus.running, 0, 0, none, 0, ""⟩)],
          [("s", "c")], []⟩
        [⟨"cid", "c", some "s", none, ContainerStatus.running, 0, 0, none, 0, ""⟩]).1 := by
  constructor
  · decide
  · decide

/-! ## Further map and registry lemmas for the pool operations -/

theorem mapSet_fresh {β : Type} {m : List (String × β)} {k : String} (v : β)
    (h : mapGet m k = none) : mapSet m k v = m ++ [(k, v)] := by
  induction m with
  | nil => rfl
  | cons p rest ih =>
    have hall := mapGet_none_iff.mp h
    have hpk : ¬ p.1 = k := hall p (List.mem_cons_self p rest)
    have hrest : mapGet rest k = none :=
      mapGet_none_iff.mpr (fun q hq => hall q (List.mem_cons_of_mem p hq))
    simp only [mapSet, if_neg hpk, List.cons_append, ih hrest]

theorem mem_mapSet_of_mem {β : Type} {m : List (String × β)} {k : String} {v : β}
    {p : String × β} (hp : p ∈ m) (hpk : ¬ p.1 = k) : p ∈ mapSet m k v := by
  induction m with
  | nil => exact absurd hp (List.not_mem_nil p)
  | cons q rest ih =>
    by_cases hq : q.1 = k
    · simp only [mapSet, if_pos hq, List.mem_cons]
      cases hp with
      | head => exact absurd hq hpk
      | tail _ h => exact Or.inr h
    · simp only [mapSet, if_neg hq, List.mem_cons]
      cases hp with
      | head => exact Or.inl rfl
      | tail _ h => exact Or.inr (ih h)

theorem self_mem_mapSet {β : Type} (m : List (String × β)) (k : String) (v : β) :
    (k, v) ∈ mapSet m k v := by
  induction m with
  | nil => exact List.mem_cons_self _ _
  | cons q rest ih =>
    by_cases hq : q.1 = k
    · simp only [mapSet, if_pos hq]; exact List.mem_cons_self _ _
    · simp only [mapSet, if_neg hq]; exact List.mem_cons_of_mem q ih

theorem mapGet_mapSet_lift {β : Type} {m : List (String × β)} {k0 k : String} {v w : β}
    (h : mapGet (mapSet m k0 v) k = some w) (hw : ¬ w = v) : mapGet m k = some w := by
  by_cases hk : k = k0
  · subst hk
    rw [mapGet_mapSet_self] at h
    exact absurd (Option.some.inj h).symm hw
  · rw [mapGet_mapSet_ne m k0 k v hk] at h
    exact h

theorem mapGet_mapSet_keep {β : Type} {m : List (String × β)} {k0 k : String} {v : β} {w : β}
    (h : mapGet m k = some w) (h0 : mapGet m k0 = none) :
    mapGet (mapSet m k0 v) k = some w := by
  by_cases hk : k = k0
  · subst hk
    rw [h] at h0
    exact Option.noConfusion h0
  · rw [mapGet_mapSet_ne m k0 k v hk]
    exact h

theorem head?_mem {l : List α} {a : α} (h : l.head? = some a) : a ∈ l := by
  cases l with
  | nil => exact Option.noConfusion h
  | cons b t =>
    rw [List.head?_cons] at h
    obtain rfl := Option.some.inj h
    exact List.mem_cons_self b t

theorem nodup_map_inj {γ : Type} {f : α → γ} {l : List α}
    (hnd : (l.map f).Nodup) : ∀ a ∈ l, ∀ b ∈ l, f a = f b → a = b := by
  induction l with
  | nil => intro a ha; exact absurd ha (List.not_mem_nil a)
  | cons x t ih =>
    rw [List.map_cons, List.nodup_cons] at hnd
    intro a ha b hb hab
    cases ha with
    | head =>
      cases hb with
      | head => rfl
      | tail _ hb => exact absurd (hab.symm ▸ List.mem_map_of_mem f hb) hnd.1
    | tail _ ha =>
      cases hb with
      | head => exact absurd (hab ▸ List.mem_map_of_mem f ha) hnd.1
      | tail _ hb => exact ih hnd.2 a ha b hb hab

theorem updateContainerEntry_fresh {reg : List ContainerRegistryEntry}
    {entry : ContainerRegistryEntry}
    (h : ∀ e ∈ reg, e.containerName ≠ entry.containerName) :
    updateContainerEntry reg entry = reg ++ [entry] := by
  unfold updateContainerEntry
  have hany : ¬ reg.any (fun e => e.containerName == entry.containerName) = true := by
    rw [List.any_eq_true]
    rintro ⟨e, he, heq⟩
    exact h e he (by simpa using heq)
  rw [if_neg hany]

theorem getContainerBySessionKey_spec {reg : List ContainerRegistryEntry} {sk : String}
    {re : ContainerRegistryEntry} (h : getContainerBySessionKey reg sk = some re) :
    re ∈ reg ∧ re.sessionKey = some sk := by
  unfold getContainerBySessionKey at h
  refine ⟨List.mem_of_find?_eq_some h, ?_⟩
  have := List.find?_some h
  simpa using this

theorem listWarmContainers_head_spec {reg : List ContainerRegistryEntry}
    {w : ContainerRegistryEntry} (h : (listWarmContainers reg).head? = some w) :
    w ∈ reg ∧ w.sessionKey = none ∧ w.status = ContainerStatus.idle := by
  have hmem := head?_mem h
  unfold listWarmContainers at hmem
  have h1 := List.mem_filter.mp hmem
  have h2 : w.sessionKey = none ∧ w.status = ContainerStatus.idle := by
    have := h1.2
    simp only [Bool.and_eq_true, beq_iff_eq] at this
    exact this
  exact ⟨h1.1, h2.1, h2.2⟩

theorem mapGet_mapDelete_sub {β : Type} {m : List (String × β)} {k0 k : String} {w : β}
    (h : mapGet (mapDelete m k0) k = some w) : mapGet m k = some w := by
  by_cases hk : k = k0
  · subst hk
    rw [mapGet_mapDelete_self] at h
    exact Option.noConfusion h
  · rw [mapGet_mapDelete_ne m k0 k hk] at h
    exact h

/-- `releaseContainer` preserves the pool invariant. -/
theorem releaseContainer_inv {cfg : DockerCCPoolConfig} {now : Int} {st : PoolState}
    {reg : List ContainerRegistryEntry} {sk : String} {rtp : Bool}
    (hwf : poolWF st reg) (hE : poolInvariant st) :
    poolInvariant (releaseContainer cfg now st reg sk rtp).1 := by
  obtain ⟨hndC, hndS, hndW, h4, h5, h6, h7, h8, h9⟩ := hwf
  unfold releaseContainer
  cases hs : mapGet st.sessionToContainer sk with
  | none => simp only [hs]; exact hE
  | some cn =>
    simp only [hs]
    by_cases hcn : cn = ""
    · rw [if_pos hcn]; exact hE
    · rw [if_neg hcn]
      have hmemq : (sk, cn) ∈ st.sessionToContainer := mem_of_mapGet_eq_some hs
      obtain ⟨hsk_ne, hck⟩ := h8 (sk, cn) hmemq
      obtain ⟨e0, hge0, hke0⟩ := containerHasKey_iff.mp hck
      by_cases hrp : rtp = true ∧ (st.warmPool.length : Int) < cfg.pool.minWarm
      · rw [if_pos hrp]
        simp only [hge0]
        intro p hp
        rcases mem_mapSet hndC hp with heq | ⟨hpm, hpn⟩
        · subst heq
          refine ⟨Or.inr (mem_setAdd.mpr (Or.inr rfl)), ?_⟩
          rintro ⟨hmap, -⟩
          obtain ⟨k, hk, -⟩ := sessionMapped_iff.mp hmap
          exact Option.noConfusion hk
        · have hEp := hE p hpm
          constructor
          · cases hEp.1 with
            | inl hmap =>
              left
              obtain ⟨k, hk, hmk⟩ := sessionMapped_iff.mp hmap
              rw [sessionMapped_iff]
              refine ⟨k, hk, ?_⟩
              have hkne : ¬ k = sk := by
                intro hk2
                subst hk2
                rw [hs] at hmk
                exact hpn (Option.some.inj hmk).symm
              show mapGet (mapDelete st.sessionToContainer sk) k = some p.1
              rw [mapGet_mapDelete_ne _ sk k hkne]
              exact hmk
            | inr hwarm =>
              exact Or.inr (mem_setAdd.mpr (Or.inl hwarm))
          · rintro ⟨hmap, hwarm⟩
            obtain ⟨k, hk, hmk⟩ := sessionMapped_iff.mp hmap
            have hmk2 : mapGet st.sessionToContainer k = some p.1 := mapGet_mapDelete_sub hmk
            have hwarm2 : p.1 ∈ st.warmPool := by
              rcases mem_setAdd.mp hwarm with h | h
              · exact h
              · exact absurd h hpn
            exact hEp.2 ⟨sessionMapped_iff.mpr ⟨k, hk, hmk2⟩, hwarm2⟩
      · rw [if_neg hrp]
        intro p hp
        obtain ⟨hpm, hpn⟩ := mem_mapDelete.mp hp
        have hEp := hE p hpm
        constructor
        · cases hEp.1 with
          | inl hmap =>
            left
            obtain ⟨k, hk, hmk⟩ := sessionMapped_iff.mp hmap
            rw [sessionMapped_iff]
            refine ⟨k, hk, ?_⟩
            have hkne : ¬ k = sk := by
              intro hk2
              subst hk2
              rw [hs] at hmk
              exact hpn (Option.some.inj hmk).symm
            show mapGet (mapDelete st.sessionToContainer sk) k = some p.1
            rw [mapGet_mapDelete_ne _ sk k hkne]
            exact hmk
          | inr hwarm => exact Or.inr hwarm
        · rintro ⟨hmap, hwarm⟩
          obtain ⟨k, hk, hmk⟩ := sessionMapped_iff.mp hmap
          have hmk2 : mapGet st.sessionToContainer k = some p.1 := mapGet_mapDelete_sub hmk
          exact hEp.2 ⟨sessionMapped_iff.mpr ⟨k, hk, hmk2⟩, hwarm⟩

/-- Deleting a session mapping preserves well-formedness. -/
theorem poolWF_s2c_delete {st : PoolState} {reg : List ContainerRegistryEntry} (k : String)
    (hwf : poolWF st reg) :
    poolWF { st with sessionToContainer := mapDelete st.sessionToContainer k } reg := by
  obtain ⟨hndC, hndS, hndW, h4, h5, h6, h7, h8, h9⟩ := hwf
  refine ⟨hndC, keys_mapDelete_nodup k hndS, hndW, h4, h5, h6, h7, ?_, ?_⟩
  · intro q hq
    obtain ⟨hqm, -⟩ := mem_mapDelete.mp hq
    obtain ⟨hq1, hq2⟩ := h8 q hqm
    refine ⟨hq1, ?_⟩
    obtain ⟨e, he, hke⟩ := containerHasKey_iff.mp hq2
    exact containerHasKey_iff.mpr ⟨e, he, hke⟩
  · intro name hname
    obtain ⟨e, he, hke⟩ := containerHasKey_iff.mp (h9 name hname)
    exact containerHasKey_iff.mpr ⟨e, he, hke⟩

/-- Updating registry entries in place with a function preserving container
name and session key preserves well-formedness. -/
theorem poolWF_reg_update {st : PoolState} {reg : List ContainerRegistryEntry}
    {pred : ContainerRegistryEntry → Bool} {f : ContainerRegistryEntry → ContainerRegistryEntry}
    (hn : ∀ e, (f e).containerName = e.containerName)
    (hk : ∀ e, (f e).sessionKey = e.sessionKey)
    (hwf : poolWF st reg) : poolWF st (updateFirst pred f reg) := by
  obtain ⟨hndC, hndS, hndW, h4, h5, h6, h7, h8, h9⟩ := hwf
  refine ⟨hndC, hndS, hndW, h4, ?_, ?_, ?_, h8, h9⟩
  · rw [updateFirst_map_eq hn]
    exact h5
  · intro e he
    rcases mem_updateFirst he with h | ⟨x, hx, -, hex⟩
    · exact h6 e h
    · subst hex
      obtain ⟨ha, hb⟩ := h6 x hx
      rw [hn, hk]
      exact ⟨ha, hb⟩
  · intro p hp
    obtain ⟨re, hre, hren, hrek⟩ := h7 p hp
    rcases exists_mem_updateFirst (p := pred) (f := f) hre with h | ⟨-, h⟩
    · exact ⟨re, h, hren, hrek⟩
    · exact ⟨f re, h, by rw [hn]; exact hren, by rw [hk]; exact hrek⟩

/-- One health-tick iteration preserves well-formedness. -/
theorem checkHealthStep_WF {docker : String → RuntimeState} {now : Int}
    {acc : PoolState × List ContainerRegistryEntry} (c : ContainerRegistryEntry)
    (hacc : poolWF acc.1 acc.2) :
    poolWF (checkHealthStep docker now acc c).1 (checkHealthStep docker now acc c).2 := by
  unfold checkHealthStep
  by_cases hrs : (docker c.containerName).present = false ∨
      (docker c.containerName).running = false
  · rw [if_pos hrs]
    exact removeContainerByName_WF c.containerName hacc
  · rw [if_neg hrs]
    have hreg : poolWF acc.1 (updateContainerStatus acc.2 c.containerName
        ContainerStatus.failed now) :=
      poolWF_reg_update (fun e => rfl) (fun e => rfl) hacc
    cases hck : c.sessionKey with
    | none => simp only [hck]; exact hreg
    | some k =>
      simp only [hck]
      by_cases hke : k = ""
      · rw [if_pos hke]; exact hreg
      · rw [if_neg hke]; exact poolWF_s2c_delete k hreg

/-- The health tick preserves well-formedness. -/
theorem checkHealth_WF {cfg : DockerCCPoolConfig} {docker : String → RuntimeState} {now : Int}
    {st : PoolState} {reg : List ContainerRegistryEntry} (hwf : poolWF st reg) :
    poolWF (checkHealth cfg docker now st reg).1 (checkHealth cfg docker now st reg).2 := by
  unfold checkHealth
  exact foldl_invariant (fun acc => poolWF acc.1 acc.2) (checkHealthStep docker now) _ (st, reg)
    hwf (fun acc c _ hacc => checkHealthStep_WF c hacc)

/-- Steps 3–5 of `getContainer` preserve the pool invariant when they
succeed, provided the requested session key has no in-memory mapping (step 1
fell through) and any created container is fresh. -/
theorem getContainerTail_inv {cfg : DockerCCPoolConfig}
    {createResult : Option (String × String)} {now : Int} {st : PoolState}
    {reg : List ContainerRegistryEntry} {p : GetContainerParams}
    {a : ContainerAssignment} {st2 : PoolState} {reg2 : List ContainerRegistryEntry}
    (hwf : poolWF st reg) (hE : poolInvariant st)
    (hfresh : createFresh createResult st reg)
    (hs1 : mapGet st.sessionToContainer p.sessionKey = none)
    (hok : getContainerTail cfg createResult now st reg p = Except.ok (a, st2, reg2)) :
    poolInvariant st2 := by
  obtain ⟨hndC, hndS, hndW, h4, h5, h6, h7, h8, h9⟩ := hwf
  unfold getContainerTail at hok
  by_cases hcap1 : ((listContainersByAgent reg (p.agentId.getD "")).length : Int) ≥
      cfg.pool.maxPerAgent
  · rw [if_pos hcap1] at hok
    exact Except.noConfusion hok
  · rw [if_neg hcap1] at hok
    by_cases hcap2 : (reg.length : Int) ≥ cfg.pool.maxTotal
    · rw [if_pos hcap2] at hok
      exact Except.noConfusion hok
    · rw [if_neg hcap2] at hok
      cases hw : (listWarmContainers reg).head? with
      | some w =>
        simp only [hw, Except.ok.injEq, Prod.mk.injEq] at hok
        obtain ⟨-, hst, -⟩ := hok
        subst hst
        intro q hq
        rcases mem_mapSet hndC hq with heq | ⟨hqm, hqn⟩
        · subst heq
          constructor
          · exact Or.inl (sessionMapped_iff.mpr
              ⟨p.sessionKey, rfl, mapGet_mapSet_self _ _ _⟩)
          · rintro ⟨-, hwarm⟩
            exact absurd rfl (mem_setDelete.mp hwarm).2
        · have hEq := hE q hqm
          constructor
          · cases hEq.1 with
            | inl hmap =>
              obtain ⟨k, hk, hmk⟩ := sessionMapped_iff.mp hmap
              exact Or.inl (sessionMapped_iff.mpr ⟨k, hk, mapGet_mapSet_keep hmk hs1⟩)
            | inr hwarm2 => exact Or.inr (mem_setDelete.mpr ⟨hwarm2, hqn⟩)
          · rintro ⟨hmap, hwarm2⟩
            obtain ⟨k, hk, hmk⟩ := sessionMapped_iff.mp hmap
            exact hEq.2 ⟨sessionMapped_iff.mpr ⟨k, hk, mapGet_mapSet_lift hmk hqn⟩,
              (mem_setDelete.mp hwarm2).1⟩
      | none =>
        simp only [hw] at hok
        cases hcr : createResult with
        | none =>
          rw [hcr] at hok
          exact Except.noConfusion hok
        | some pr =>
          obtain ⟨cid, cname⟩ := pr
          rw [hcr] at hok
          simp only [Except.ok.injEq, Prod.mk.injEq] at hok
          obtain ⟨-, hst, -⟩ := hok
          subst hst
          rw [hcr] at hfresh
          obtain ⟨hcne, hcfresh, hcreg⟩ : cname ≠ "" ∧ mapGet st.containers cname = none ∧
              ∀ e ∈ reg, e.containerName ≠ cname := hfresh
          intro q hq
          rcases mem_mapSet hndC hq with heq | ⟨hqm, hqn⟩
          · subst heq
            constructor
            · exact Or.inl (sessionMapped_iff.mpr
                ⟨p.sessionKey, rfl, mapGet_mapSet_self _ _ _⟩)
            · rintro ⟨-, hwarm⟩
              obtain ⟨e2, hge2, -⟩ := containerHasKey_iff.mp (h9 cname hwarm)
              rw [hcfresh] at hge2
              exact Option.noConfusion hge2
          · have hEq := hE q hqm
            constructor
            · cases hEq.1 with
              | inl hmap =>
                obtain ⟨k, hk, hmk⟩ := sessionMapped_iff.mp hmap
                exact Or.inl (sessionMapped_iff.mpr ⟨k, hk, mapGet_mapSet_keep hmk hs1⟩)
              | inr hwarm => exact Or.inr hwarm
            · rintro ⟨hmap, hwarm⟩
              obtain ⟨k, hk, hmk⟩ := sessionMapped_iff.mp hmap
              exact hEq.2 ⟨sessionMapped_iff.mpr ⟨k, hk, mapGet_mapSet_lift hmk hqn⟩, hwarm⟩

/-- `getContainer` preserves the pool invariant whenever it returns an
assignment. -/
theorem getContainer_ok_inv {cfg : DockerCCPoolConfig} {docker : String → RuntimeState}
    {createResult : Option (String × String)} {now : Int} {st : PoolState}
    {reg : List ContainerRegistryEntry} {p : GetContainerParams}
    {a : ContainerAssignment} {st2 : PoolState} {reg2 : List ContainerRegistryEntry}
    (hwf : poolWF st reg) (hE : poolInvariant st)
    (hfresh : createFresh createResult st reg)
    (hok : getContainer cfg docker createResult now st reg p = Except.ok (a, st2, reg2)) :
    poolInvariant st2 := by
  have hwf2 := hwf
  obtain ⟨hndC, hndS, hndW, h4, h5, h6, h7, h8, h9⟩ := hwf
  unfold getContainer at hok
  cases hs1 : mapGet st.sessionToContainer p.sessionKey with
  | some en =>
    simp only [hs1] at hok
    by_cases he : en = ""
    · exfalso
      have hmem := mem_of_mapGet_eq_some hs1
      obtain ⟨-, hck⟩ := h8 (p.sessionKey, en) hmem
      obtain ⟨e, hge, -⟩ := containerHasKey_iff.mp hck
      have hm2 := mem_of_mapGet_eq_some hge
      exact (h4 (en, e) hm2).2.1 he
    · rw [if_neg he] at hok
      cases hge : mapGet st.containers en with
      | some entry =>
        simp only [hge, Except.ok.injEq, Prod.mk.injEq] at hok
        obtain ⟨-, hst, -⟩ := hok
        subst hst
        exact hE
      | none =>
        exfalso
        have hmem := mem_of_mapGet_eq_some hs1
        obtain ⟨-, hck⟩ := h8 (p.sessionKey, en) hmem
        obtain ⟨e, hge2, -⟩ := containerHasKey_iff.mp hck
        rw [hge] at hge2
        exact Option.noConfusion hge2
  | none =>
    simp only [hs1] at hok
    cases hadopt : getContainerBySessionKey reg p.sessionKey with
    | some re =>
      simp only [hadopt] at hok
      by_cases hrun : (docker re.containerName).present = true ∧
          (docker re.containerName).running = true
      · rw [if_pos hrun] at hok
        simp only [Except.ok.injEq, Prod.mk.injEq] at hok
        obtain ⟨-, hst, -⟩ := hok
        subst hst
        obtain ⟨hre_mem, hre_key⟩ := getContainerBySessionKey_spec hadopt
        intro q hq
        rcases mem_mapSet hndC hq with heq | ⟨hqm, hqn⟩
        · subst heq
          constructor
          · exact Or.inl (sessionMapped_iff.mpr
              ⟨p.sessionKey, hre_key, mapGet_mapSet_self _ _ _⟩)
          · rintro ⟨-, hwarm⟩
            obtain ⟨e2, hge2, hke2⟩ := containerHasKey_iff.mp (h9 re.containerName hwarm)
            have hmem2 := mem_of_mapGet_eq_some hge2
            obtain ⟨re2, hre2, hre2n, hre2k⟩ := h7 (re.containerName, e2) hmem2
            have hre2eq : re2 = re := nodup_map_inj h5 re2 hre2 re hre_mem hre2n
            subst hre2eq
            rw [hre_key, hke2] at hre2k
            exact Option.noConfusion hre2k
        · have hEq := hE q hqm
          constructor
          · cases hEq.1 with
            | inl hmap =>
              obtain ⟨k, hk, hmk⟩ := sessionMapped_iff.mp hmap
              exact Or.inl (sessionMapped_iff.mpr ⟨k, hk, mapGet_mapSet_keep hmk hs1⟩)
            | inr hwarm => exact Or.inr hwarm
          · rintro ⟨hmap, hwarm⟩
            obtain ⟨k, hk, hmk⟩ := sessionMapped_iff.mp hmap
            exact hEq.2 ⟨sessionMapped_iff.mpr ⟨k, hk, mapGet_mapSet_lift hmk hqn⟩, hwarm⟩
      · rw [if_neg hrun] at hok
        exact getContainerTail_inv hwf2 hE hfresh hs1 hok
    | none =>
      simp only [hadopt] at hok
      exact getContainerTail_inv hwf2 hE hfresh hs1 hok

theorem createWarmContainer_eq_none {now : Int} {st : PoolState}
    {reg : List ContainerRegistryEntry} :
    createWarmContainer none now st reg = (st, reg) := rfl

theorem createWarmContainer_eq_some {cid cname : String} {now : Int} {st : PoolState}
    {reg : List ContainerRegistryEntry} :
    createWarmContainer (some (cid, cname)) now st reg =
      (⟨mapSet st.containers cname
          ⟨cid, cname, none, none, ContainerStatus.idle, now, now, none, 0, ""⟩,
        st.sessionToContainer,
        setAdd st.warmPool cname⟩,
       updateContainerEntry reg
         ⟨cid, cname, none, none, ContainerStatus.idle, now, now, none, 0, ""⟩) := rfl

/-- Creating a warm container with a fresh name preserves well-formedness. -/
theorem createWarmContainer_WF {create : Option (String × String)} {now : Int}
    {st : PoolState} {reg : List ContainerRegistryEntry}
    (hwf : poolWF st reg) (hfresh : createFresh create st reg) :
    poolWF (createWarmContainer create now st reg).1 (createWarmContainer create now st reg).2 := by
  obtain ⟨hndC, hndS, hndW, h4, h5, h6, h7, h8, h9⟩ := hwf
  cases create with
  | none => exact ⟨hndC, hndS, hndW, h4, h5, h6, h7, h8, h9⟩
  | some pr =>
    obtain ⟨cid, cname⟩ := pr
    obtain ⟨hcne, hcfresh, hcreg⟩ : cname ≠ "" ∧ mapGet st.containers cname = none ∧
        ∀ e ∈ reg, e.containerName ≠ cname := hfresh
    rw [createWarmContainer_eq_some]
    have hentry_eq : updateContainerEntry reg
        ⟨cid, cname, none, none, ContainerStatus.idle, now, now, none, 0, ""⟩ =
        reg ++ [⟨cid, cname, none, none, ContainerStatus.idle, now, now, none, 0, ""⟩] :=
      updateContainerEntry_fresh (fun e he => hcreg e he)
    rw [hentry_eq]
    refine ⟨keys_mapSet_nodup cname _ hndC, hndS, setAdd_nodup cname hndW, ?_, ?_, ?_, ?_, ?_, ?_⟩
    · intro p hp
      rcases mem_mapSet hndC hp with heq | ⟨hpm, -⟩
      · subst heq
        exact ⟨rfl, hcne, fun h => Option.noConfusion h⟩
      · exact h4 p hpm
    · rw [List.map_append]
      refine List.Nodup.append h5 (List.nodup_singleton _) ?_
      intro x hx1 hx2
      obtain ⟨e, he, hex⟩ := List.mem_map.mp hx1
      simp only [List.map_cons, List.map_nil, List.mem_singleton] at hx2
      exact hcreg e he (hex.trans hx2)
    · intro e he
      rcases List.mem_append.mp he with h | h
      · exact h6 e h
      · rw [List.mem_singleton] at h
        subst h
        exact ⟨hcne, fun h => Option.noConfusion h⟩
    · intro p hp
      rcases mem_mapSet hndC hp with heq | ⟨hpm, -⟩
      · subst heq
        exact ⟨⟨cid, cname, none, none, ContainerStatus.idle, now, now, none, 0, ""⟩,
          List.mem_append.mpr (Or.inr (List.mem_singleton.mpr rfl)), rfl, rfl⟩
      · obtain ⟨re, hre, hren, hrek⟩ := h7 p hpm
        exact ⟨re, List.mem_append.mpr (Or.inl hre), hren, hrek⟩
    · intro q hq
      obtain ⟨hq1, hq2⟩ := h8 q hq
      refine ⟨hq1, ?_⟩
      obtain ⟨e, hge, hke⟩ := containerHasKey_iff.mp hq2
      exact containerHasKey_iff.mpr ⟨e, mapGet_mapSet_keep hge hcfresh, hke⟩
    · intro name hname
      rcases mem_setAdd.mp hname with h | h
      · obtain ⟨e, hge, hke⟩ := containerHasKey_iff.mp (h9 name h)
        exact containerHasKey_iff.mpr ⟨e, mapGet_mapSet_keep hge hcfresh, hke⟩
      · rw [h]
        exact containerHasKey_iff.mpr
          ⟨⟨cid, cname, none, none, ContainerStatus.idle, now, now, none, 0, ""⟩,
            mapGet_mapSet_self _ _ _, rfl⟩

/-- Creating a warm container with a fresh name preserves the pool
invariant. -/
theorem createWarmContainer_inv {create : Option (String × String)} {now : Int}
    {st : PoolState} {reg : List ContainerRegistryEntry}
    (hwf : poolWF st reg) (hfresh : createFresh create st reg) (hE : poolInvariant st) :
    poolInvariant (createWarmContainer create now st reg).1 := by
  obtain ⟨hndC, hndS, hndW, h4, h5, h6, h7, h8, h9⟩ := hwf
  cases create with
  | none => exact hE
  | some pr =>
    obtain ⟨cid, cname⟩ := pr
    obtain ⟨hcne, hcfresh, hcreg⟩ : cname ≠ "" ∧ mapGet st.containers cname = none ∧
        ∀ e ∈ reg, e.containerName ≠ cname := hfresh
    rw [createWarmContainer_eq_some]
    intro q hq
    rcases mem_mapSet hndC hq with heq | ⟨hqm, hqn⟩
    · subst heq
      refine ⟨Or.inr (mem_setAdd.mpr (Or.inr rfl)), ?_⟩
      rintro ⟨hmap, -⟩
      obtain ⟨k, hk, -⟩ := sessionMapped_iff.mp hmap
      exact Option.noConfusion hk
    · have hEq := hE q hqm
      constructor
      · cases hEq.1 with
        | inl hmap =>
          obtain ⟨k, hk, hmk⟩ := sessionMapped_iff.mp hmap
          exact Or.inl (sessionMapped_iff.mpr ⟨k, hk, hmk⟩)
        | inr hwarm => exact Or.inr (mem_setAdd.mpr (Or.inl hwarm))
      · rintro ⟨hmap, hwarm⟩
        obtain ⟨k, hk, hmk⟩ := sessionMapped_iff.mp hmap
        have hwarm2 : q.1 ∈ st.warmPool := by
          rcases mem_setAdd.mp hwarm with h | h
          · exact h
          · exact absurd h hqn
        exact hEq.2 ⟨sessionMapped_iff.mpr ⟨k, hk, hmk⟩, hwarm2⟩

theorem warmFold_zero {creates : Nat → Option (String × String)} {now : Int}
    {acc : PoolState × List ContainerRegistryEntry} :
    warmFold creates now 0 acc = acc := rfl

theorem warmFold_succ {creates : Nat → Option (String × String)} {now : Int} {n : Nat}
    {acc : PoolState × List ContainerRegistryEntry} :
    warmFold creates now (n + 1) acc =
      createWarmContainer (creates n) now (warmFold creates now n acc).1
        (warmFold creates now n acc).2 := by
  unfold warmFold
  rw [List.range_succ, List.foldl_append, List.foldl_cons, List.foldl_nil]

/-- The warm-creation loop preserves well-formedness and the invariant, and
only adds containers and registry entries named by the creation oracle. -/
theorem warmFold_props {creates : Nat → Option (String × String)} {now : Int}
    {st0 : PoolState} {reg0 : List ContainerRegistryEntry}
    (hwf : poolWF st0 reg0) (hE : poolInvariant st0)
    (hfresh : createsFresh creates st0 reg0) :
    ∀ n : Nat,
      poolWF (warmFold creates now n (st0, reg0)).1 (warmFold creates now n (st0, reg0)).2 ∧
      poolInvariant (warmFold creates now n (st0, reg0)).1 ∧
      (∀ p ∈ (warmFold creates now n (st0, reg0)).1.containers,
        p ∈ st0.containers ∨ ∃ j, j < n ∧ ∃ c, creates j = some (c, p.1)) ∧
      (∀ e ∈ (warmFold creates now n (st0, reg0)).2,
        e ∈ reg0 ∨ ∃ j, j < n ∧ ∃ c, creates j = some (c, e.containerName)) := by
  intro n
  induction n with
  | zero => exact ⟨hwf, hE, fun p hp => Or.inl hp, fun e he => Or.inl he⟩
  | succ n ih =>
    obtain ⟨ihwf, ihE, ihc, ihr⟩ := ih
    rw [warmFold_succ]
    cases hcr : creates n with
    | none =>
      simp only [createWarmContainer_eq_none]
      refine ⟨ihwf, ihE, ?_, ?_⟩
      · intro p hp
        rcases ihc p hp with h | ⟨j, hj, c2, hc2⟩
        · exact Or.inl h
        · exact Or.inr ⟨j, Nat.lt_succ_of_lt hj, c2, hc2⟩
      · intro e he
        rcases ihr e he with h | ⟨j, hj, c2, hc2⟩
        · exact Or.inl h
        · exact Or.inr ⟨j, Nat.lt_succ_of_lt hj, c2, hc2⟩
    | some pr =>
      obtain ⟨cid, cname⟩ := pr
      obtain ⟨hcne, hf0, hr0, hdist⟩ := hfresh n cid cname hcr
      have hfc : mapGet (warmFold creates now n (st0, reg0)).1.containers cname = none := by
        rw [mapGet_none_iff]
        intro p hp hpc
        rcases ihc p hp with h | ⟨j, hj, c2, hc2⟩
        · exact mapGet_none_iff.mp hf0 p h hpc
        · exact hdist j c2 p.1 (Nat.ne_of_lt hj) hc2 hpc
      have hfr : ∀ e ∈ (warmFold creates now n (st0, reg0)).2, e.containerName ≠ cname := by
        intro e he hec
        rcases ihr e he with h | ⟨j, hj, c2, hc2⟩
        · exact hr0 e h hec
        · rw [hec] at hc2
          exact hdist j c2 cname (Nat.ne_of_lt hj) hc2 rfl
      have hfreshA : createFresh (some (cid, cname)) (warmFold creates now n (st0, reg0)).1
          (warmFold creates now n (st0, reg0)).2 := ⟨hcne, hfc, hfr⟩
      refine ⟨createWarmContainer_WF ihwf hfreshA,
        createWarmContainer_inv ihwf hfreshA ihE, ?_, ?_⟩
      · intro p hp
        simp only [createWarmContainer_eq_some] at hp
        rcases mem_mapSet ihwf.1 hp with heq | ⟨hpm, -⟩
        · exact Or.inr ⟨n, Nat.lt_succ_self n, cid, by rw [heq]; exact hcr⟩
        · rcases ihc p hpm with h | ⟨j, hj, c2, hc2⟩
          · exact Or.inl h
          · exact Or.inr ⟨j, Nat.lt_succ_of_lt hj, c2, hc2⟩
      · intro e he
        simp only [createWarmContainer_eq_some] at he
        rw [updateContainerEntry_fresh hfr] at he
        rcases List.mem_append.mp he with h | h
        · rcases ihr e h with h2 | ⟨j, hj, c2, hc2⟩
          · exact Or.inl h2
          · exact Or.inr ⟨j, Nat.lt_succ_of_lt hj, c2, hc2⟩
        · rw [List.mem_singleton] at h
          subst h
          exact Or.inr ⟨n, Nat.lt_succ_self n, cid, hcr⟩

/-- `ensureWarmPool` preserves well-formedness and the pool invariant when
the creation oracle produces fresh names. -/
theorem ensureWarmPool_WF_inv {cfg : DockerCCPoolConfig}
    {creates : Nat → Option (String × String)} {now : Int} {st : PoolState}
    {reg : List ContainerRegistryEntry}
    (hwf : poolWF st reg) (hE : poolInvariant st) (hfresh : createsFresh creates st reg) :
    poolWF (ensureWarmPool cfg creates now st reg).1 (ensureWarmPool cfg creates now st reg).2 ∧
    poolInvariant (ensureWarmPool cfg creates now st reg).1 := by
  simp only [ensureWarmPool]
  by_cases hn : cfg.pool.minWarm - (st.warmPool.length : Int) ≤ 0
  · rw [if_pos hn]
    exact ⟨hwf, hE⟩
  · rw [if_neg hn]
    obtain ⟨a, b, -, -⟩ := warmFold_props hwf hE hfresh
      (min (cfg.pool.minWarm - (st.warmPool.length : Int))
        (cfg.pool.maxTotal - (st.containers.length : Int))).toNat
    exact ⟨a, b⟩

/-- Freshness of the creation oracle is preserved when the state and
registry only shrink. -/
theorem createsFresh_mono {creates : Nat → Option (String × String)}
    {st st2 : PoolState} {reg reg2 : List ContainerRegistryEntry}
    (h : createsFresh creates st reg)
    (hsub : ∀ p ∈ st2.containers, p ∈ st.containers)
    (hregsub : ∀ e ∈ reg2, e ∈ reg) : createsFresh creates st2 reg2 := by
  intro i cid cname hc
  obtain ⟨h1, h2, h3, h4⟩ := h i cid cname hc
  refine ⟨h1, ?_, fun e he => h3 e (hregsub e he), h4⟩
  exact mapGet_none_iff.mpr (fun p hp => mapGet_none_iff.mp h2 p (hsub p hp))

theorem removalsFold_cons {c : ContainerRegistryEntry} {l : List ContainerRegistryEntry}
    {acc : PoolState × List ContainerRegistryEntry} :
    removalsFold (c :: l) acc =
      removalsFold l (removeContainerByName acc.1 acc.2 c.containerName) := rfl

/-- A sequence of removals preserves well-formedness and the invariant, and
only shrinks the container map and the registry. -/
theorem removalsFold_props :
    ∀ (l : List ContainerRegistryEntry) (acc : PoolState × List ContainerRegistryEntry),
    poolWF acc.1 acc.2 → poolInvariant acc.1 →
    (∀ p ∈ (removalsFold l acc).1.containers, p ∈ acc.1.containers) ∧
    (∀ e ∈ (removalsFold l acc).2, e ∈ acc.2) ∧
    poolWF (removalsFold l acc).1 (removalsFold l acc).2 ∧
    poolInvariant (removalsFold l acc).1 := by
  intro l
  induction l with
  | nil => intro acc hwf hE; exact ⟨fun p hp => hp, fun e he => he, hwf, hE⟩
  | cons c rest ih =>
    intro acc hwf hE
    rw [removalsFold_cons]
    have hstep : poolWF (removeContainerByName acc.1 acc.2 c.containerName).1
        (removeContainerByName acc.1 acc.2 c.containerName).2 :=
      removeContainerByName_WF c.containerName hwf
    have hstepE : poolInvariant (removeContainerByName acc.1 acc.2 c.containerName).1 :=
      removeContainerByName_inv c.containerName hwf hE
    obtain ⟨s1, s2, s3, s4⟩ := ih (removeContainerByName acc.1 acc.2 c.containerName)
      hstep hstepE
    refine ⟨?_, ?_, s3, s4⟩
    · intro p hp
      have h2 := s1 p hp
      simp only [removeContainerByName_eq] at h2
      exact (mem_mapDelete.mp h2).1
    · intro e he
      have h2 := s2 e he
      simp only [removeContainerByName_eq] at h2
      exact (List.mem_filter.mp h2).1

/-- The maintenance tick preserves well-formedness and the pool invariant
when the creation oracle produces fresh names. -/
theorem maintenance_WF_inv {cfg : DockerCCPoolConfig}
    {creates : Nat → Option (String × String)} {now : Int} {st : PoolState}
    {reg : List ContainerRegistryEntry}
    (hwf : poolWF st reg) (hE : poolInvariant st) (hfresh : createsFresh creates st reg) :
    poolWF (maintenance cfg creates now st reg).1 (maintenance cfg creates now st reg).2 ∧
    poolInvariant (maintenance cfg creates now st reg).1 := by
  simp only [maintenance]
  refine ensureWarmPool_WF_inv ?_ ?_ ?_
  · exact (removalsFold_props _ _ (removalsFold_props _ _ hwf hE).2.2.1
      (removalsFold_props _ _ hwf hE).2.2.2).2.2.1
  · exact (removalsFold_props _ _ (removalsFold_props _ _ hwf hE).2.2.1
      (removalsFold_props _ _ hwf hE).2.2.2).2.2.2
  · refine createsFresh_mono hfresh ?_ ?_
    · intro q hq
      exact (removalsFold_props _ _ hwf hE).1 q
        ((removalsFold_props _ _ (removalsFold_props _ _ hwf hE).2.2.1
          (removalsFold_props _ _ hwf hE).2.2.2).1 q hq)
    · intro e he
      exact (removalsFold_props _ _ hwf hE).2.1 e
        ((removalsFold_props _ _ (removalsFold_props _ _ hwf hE).2.2.1
          (removalsFold_props _ _ hwf hE).2.2.2).2.1 e he)

/-- Shutdown clears the in-memory maps, so the invariant holds vacuously. -/
theorem poolShutdown_inv (st : PoolState) (reg : List ContainerRegistryEntry) :
    poolInvariant (poolShutdown st reg).1 := by
  intro p hp
  exact absurd hp (List.not_mem_nil p)

/-! ## The `syncState` rebuild -/

theorem setAdd_fresh {l : List String} {x : String} (h : x ∉ l) :
    setAdd l x = l ++ [x] := by
  unfold setAdd
  rw [if_neg h]

theorem rebuildStep_eq_key {st0 : PoolState} {e : ContainerRegistryEntry} {k : String}
    (hsk : e.sessionKey = some k) (hk : ¬ k = "") :
    rebuildStep st0 e =
      ⟨mapSet st0.containers e.containerName e,
       mapSet st0.sessionToContainer k e.containerName, st0.warmPool⟩ := by
  unfold rebuildStep
  simp only [hsk]
  rw [if_neg hk]

theorem rebuildStep_eq_none_idle {st0 : PoolState} {e : ContainerRegistryEntry}
    (hsk : e.sessionKey = none) (hid : e.status = ContainerStatus.idle) :
    rebuildStep st0 e =
      ⟨mapSet st0.containers e.containerName e, st0.sessionToContainer,
       setAdd st0.warmPool e.containerName⟩ := by
  unfold rebuildStep
  simp only [hsk]
  rw [if_pos hid]

theorem rebuildStep_eq_none_busy {st0 : PoolState} {e : ContainerRegistryEntry}
    (hsk : e.sessionKey = none) (hid : ¬ e.status = ContainerStatus.idle) :
    rebuildStep st0 e =
      ⟨mapSet st0.containers e.containerName e, st0.sessionToContainer, st0.warmPool⟩ := by
  unfold rebuildStep
  simp only [hsk]
  rw [if_neg hid]

theorem sessPair_some {e : ContainerRegistryEntry} {k : String}
    (hsk : e.sessionKey = some k) (hk : ¬ k = "") :
    sessPair e = some (k, e.containerName) := by
  unfold sessPair
  simp only [hsk]
  rw [if_neg hk]

theorem sessPair_none {e : ContainerRegistryEntry} (hsk : e.sessionKey = none) :
    sessPair e = none := by
  unfold sessPair
  rw [hsk]

theorem warmPred_some {e : ContainerRegistryEntry} {k : String}
    (hsk : e.sessionKey = some k) (hk : ¬ k = "") : warmPred e = false := by
  simp [warmPred, hsk, hk]

theorem warmPred_none {e : ContainerRegistryEntry} (hsk : e.sessionKey = none) :
    warmPred e = (e.status == ContainerStatus.idle) := by
  simp [warmPred, hsk]

/-- Closed form of the rebuild loop over fresh, well-formed entries. -/
theorem rebuild_go :
    ∀ (entries : List ContainerRegistryEntry) (st0 : PoolState),
    (entries.map (·.containerName)).Nodup →
    (∀ e ∈ entries, e.containerName ≠ "" ∧ e.sessionKey ≠ some "") →
    (∀ e1 ∈ entries, ∀ e2 ∈ entries,
      e1.sessionKey ≠ none → e1.sessionKey = e2.sessionKey → e1 = e2) →
    (∀ e ∈ entries, mapGet st0.containers e.containerName = none) →
    (∀ e ∈ entries, e.containerName ∉ st0.warmPool) →
    (∀ e ∈ entries, ∀ k, e.sessionKey = some k → mapGet st0.sessionToContainer k = none) →
    entries.foldl rebuildStep st0 =
      ⟨st0.containers ++ entries.map (fun e => (e.containerName, e)),
       st0.sessionToContainer ++ entries.filterMap sessPair,
       st0.warmPool ++ (entries.filter warmPred).map (·.containerName)⟩ := by
  intro entries
  induction entries with
  | nil =>
    intro st0 _ _ _ _ _ _
    simp
  | cons e rest ih =>
    intro st0 hnd h46 hinj hfc hfw hfs
    rw [List.map_cons, List.nodup_cons] at hnd
    have hnotrest : e.containerName ∉ rest.map (·.containerName) := hnd.1
    have h46e := h46 e (List.mem_cons_self e rest)
    have h46r : ∀ e2 ∈ rest, e2.containerName ≠ "" ∧ e2.sessionKey ≠ some "" :=
      fun e2 h2 => h46 e2 (List.mem_cons_of_mem e h2)
    have hinjr : ∀ e1 ∈ rest, ∀ e2 ∈ rest,
        e1.sessionKey ≠ none → e1.sessionKey = e2.sessionKey → e1 = e2 :=
      fun e1 h1 e2 h2 => hinj e1 (List.mem_cons_of_mem e h1) e2 (List.mem_cons_of_mem e h2)
    have hne_rest : ∀ e2 ∈ rest, e2.containerName ≠ e.containerName := by
      intro e2 h2 hx
      exact hnotrest (hx ▸ List.mem_map_of_mem (·.containerName) h2)
    have hfc2 : ∀ e2 ∈ rest,
        mapGet (st0.containers ++ [(e.containerName, e)]) e2.containerName = none := by
      intro e2 h2
      rw [mapGet_none_iff]
      intro p hp
      rcases List.mem_append.mp hp with h | h
      · exact mapGet_none_iff.mp (hfc e2 (List.mem_cons_of_mem e h2)) p h
      · rw [List.mem_singleton] at h
        subst h
        exact fun hx => hne_rest e2 h2 (hx.symm)
    rw [List.foldl_cons]
    cases hsk : e.sessionKey with
    | some k =>
      have hk : ¬ k = "" := fun h0 => h46e.2 (by rw [hsk, h0])
      have hfs2 : ∀ e2 ∈ rest, ∀ k2, e2.sessionKey = some k2 →
          mapGet (st0.sessionToContainer ++ [(k, e.containerName)]) k2 = none := by
        intro e2 h2 k2 hk2
        rw [mapGet_none_iff]
        intro p hp
        rcases List.mem_append.mp hp with h | h
        · exact mapGet_none_iff.mp (hfs e2 (List.mem_cons_of_mem e h2) k2 hk2) p h
        · rw [List.mem_singleton] at h
          subst h
          intro hkk2
          have hkk2x : k = k2 := hkk2
          have hee2 : e = e2 := by
            refine hinj e (List.mem_cons_self e rest) e2 (List.mem_cons_of_mem e h2)
              (by rw [hsk]; exact fun h0 => Option.noConfusion h0) ?_
            rw [hsk, hk2, hkk2x]
          exact hne_rest e2 h2 (by rw [← hee2])
      rw [rebuildStep_eq_key hsk hk,
        mapSet_fresh e (hfc e (List.mem_cons_self e rest)),
        mapSet_fresh e.containerName (hfs e (List.mem_cons_self e rest) k hsk),
        ih ⟨st0.containers ++ [(e.containerName, e)],
          st0.sessionToContainer ++ [(k, e.containerName)], st0.warmPool⟩
          hnd.2 h46r hinjr hfc2 (fun e2 h2 => hfw e2 (List.mem_cons_of_mem e h2)) hfs2,
        List.filterMap_cons_some (sessPair_some hsk hk),
        List.filter_cons_of_neg (by simp [warmPred_some hsk hk])]
      simp [List.append_assoc]
    | none =>
      have hsnone : sessPair e = none := sessPair_none hsk
      by_cases hid : e.status = ContainerStatus.idle
      · have hwp : warmPred e = true := by
          rw [warmPred_none hsk, hid]
          rfl
        rw [rebuildStep_eq_none_idle hsk hid,
          mapSet_fresh e (hfc e (List.mem_cons_self e rest)),
          setAdd_fresh (hfw e (List.mem_cons_self e rest)),
          ih ⟨st0.containers ++ [(e.containerName, e)], st0.sessionToContainer,
            st0.warmPool ++ [e.containerName]⟩
            hnd.2 h46r hinjr hfc2
            (by
              intro e2 h2 hmem
              rcases List.mem_append.mp hmem with h | h
              · exact hfw e2 (List.mem_cons_of_mem e h2) h
              · rw [List.mem_singleton] at h
                exact hne_rest e2 h2 h)
            (fun e2 h2 k2 hk2 => hfs e2 (List.mem_cons_of_mem e h2) k2 hk2),
          List.filterMap_cons_none hsnone,
          List.filter_cons_of_pos (by rw [hwp])]
        simp [List.append_assoc]
      · have hwp : warmPred e = false := by
          rw [warmPred_none hsk]
          simp [hid]
        rw [rebuildStep_eq_none_busy hsk hid,
          mapSet_fresh e (hfc e (List.mem_cons_self e rest)),
          ih ⟨st0.containers ++ [(e.containerName, e)], st0.sessionToContainer,
            st0.warmPool⟩
            hnd.2 h46r hinjr hfc2
            (fun e2 h2 => hfw e2 (List.mem_cons_of_mem e h2))
            (fun e2 h2 k2 hk2 => hfs e2 (List.mem_cons_of_mem e h2) k2 hk2),
          List.filterMap_cons_none hsnone,
          List.filter_cons_of_neg (by rw [hwp]; exact Bool.false_ne_true)]
        simp [List.append_assoc]

/-- Closed form of `rebuildFromEntries` over a well-formed registry. -/
theorem rebuildFromEntries_eq (entries : List ContainerRegistryEntry)
    (hnd : (entries.map (·.containerName)).Nodup)
    (h46 : ∀ e ∈ entries, e.containerName ≠ "" ∧ e.sessionKey ≠ some "")
    (hinj : ∀ e1 ∈ entries, ∀ e2 ∈ entries,
      e1.sessionKey ≠ none → e1.sessionKey = e2.sessionKey → e1 = e2) :
    rebuildFromEntries entries =
      ⟨entries.map (fun e => (e.containerName, e)),
       entries.filterMap sessPair,
       (entries.filter warmPred).map (·.containerName)⟩ := by
  unfold rebuildFromEntries
  rw [rebuild_go entries ⟨[], [], []⟩ hnd h46 hinj (fun e _ => rfl)
    (fun e _ => List.not_mem_nil _) (fun e _ k _ => rfl)]
  simp

/-- Looking up an assigned session key in the rebuilt session map finds the
entry's own container, provided assigned keys are injective. -/
theorem mapGet_filterMap_sessPair :
    ∀ {entries : List ContainerRegistryEntry} {e : ContainerRegistryEntry} {k : String},
    (∀ e1 ∈ entries, ∀ e2 ∈ entries,
      e1.sessionKey ≠ none → e1.sessionKey = e2.sessionKey → e1 = e2) →
    e ∈ entries → e.sessionKey = some k → k ≠ "" →
    mapGet (entries.filterMap sessPair) k = some e.containerName := by
  intro entries
  induction entries with
  | nil => intro e k _ he; exact absurd he (List.not_mem_nil e)
  | cons a rest ih =>
    intro e k hinj he hk hne
    have hinjr : ∀ e1 ∈ rest, ∀ e2 ∈ rest,
        e1.sessionKey ≠ none → e1.sessionKey = e2.sessionKey → e1 = e2 :=
      fun e1 h1 e2 h2 => hinj e1 (List.mem_cons_of_mem a h1) e2 (List.mem_cons_of_mem a h2)
    cases hska : a.sessionKey with
    | none =>
      rw [List.filterMap_cons_none (sessPair_none hska)]
      cases he with
      | head =>
        rw [hska] at hk
        exact Option.noConfusion hk
      | tail _ he2 => exact ih hinjr he2 hk hne
    | some ka =>
      by_cases hka : ka = ""
      · rw [List.filterMap_cons_none (by unfold sessPair; simp only [hska]; rw [if_pos hka])]
        cases he with
        | head =>
          rw [hska] at hk
          exact absurd ((Option.some.inj hk) ▸ hka) hne
        | tail _ he2 => exact ih hinjr he2 hk hne
      · rw [List.filterMap_cons_some (sessPair_some hska hka)]
        by_cases hkka : ka = k
        · have hae : a = e := by
            refine hinj a (List.mem_cons_self a rest) e he
              (by rw [hska]; exact fun h0 => Option.noConfusion h0) ?_
            rw [hska, hk, hkka]
          unfold mapGet
          rw [List.find?_cons_of_pos _ (by simpa using hkka)]
          simp [hae]
        · have he2 : e ∈ rest := by
            cases he with
            | head =>
              rw [hska] at hk
              exact absurd (Option.some.inj hk) hkka
            | tail _ h2 => exact h2
          have hrec := ih hinjr he2 hk hne
          unfold mapGet
          rw [List.find?_cons_of_neg _ (by simpa using hkka)]
          unfold mapGet at hrec
          exact hrec

/-- Membership of a container name in the rebuilt warm pool reflects
`warmPred`, provided names are unique. -/
theorem mem_warm_names {entries : List ContainerRegistryEntry} {e : ContainerRegistryEntry}
    (hnd : (entries.map (·.containerName)).Nodup) (he : e ∈ entries) :
    e.containerName ∈ (entries.filter warmPred).map (·.containerName) ↔ warmPred e = true := by
  constructor
  · intro h
    obtain ⟨e2, he2, hee⟩ := List.mem_map.mp h
    have he2f := List.mem_filter.mp he2
    have heq : e2 = e := nodup_map_inj hnd e2 he2f.1 e he hee
    rw [← heq]
    exact he2f.2
  · intro h
    exact List.mem_map.mpr ⟨e, List.mem_filter.mpr ⟨he, h⟩, rfl⟩

/-- The rebuilt in-memory state satisfies the pool invariant. -/
theorem rebuildFromEntries_inv {entries : List ContainerRegistryEntry}
    (hreg : regWF entries) : poolInvariant (rebuildFromEntries entries) := by
  obtain ⟨hnd, h46, hinj, hidle⟩ := hreg
  rw [rebuildFromEntries_eq entries hnd h46 hinj]
  intro p hp
  obtain ⟨e, he, hpe⟩ := List.mem_map.mp hp
  subst hpe
  cases hsk : e.sessionKey with
  | some k =>
    have hkne : k ≠ "" := fun hk0 => (h46 e he).2 (by rw [hsk, hk0])
    constructor
    · exact Or.inl (sessionMapped_iff.mpr
        ⟨k, hsk, mapGet_filterMap_sessPair hinj he hsk hkne⟩)
    · rintro ⟨-, hwarm⟩
      have hw := (mem_warm_names hnd he).mp hwarm
      rw [warmPred_some hsk hkne] at hw
      exact Bool.false_ne_true hw
  | none =>
    have hid := hidle e he hsk
    constructor
    · refine Or.inr ((mem_warm_names hnd he).mpr ?_)
      rw [warmPred_none hsk, hid]
      rfl
    · rintro ⟨hmap, -⟩
      obtain ⟨k, hk, -⟩ := sessionMapped_iff.mp hmap
      rw [hsk] at hk
      exact Option.noConfusion hk

/-- `regWF` restricts along `filter`. -/
theorem regWF_filter {reg : List ContainerRegistryEntry}
    (h : regWF reg) (pred : ContainerRegistryEntry → Bool) : regWF (reg.filter pred) := by
  obtain ⟨hnd, h46, hinj, hidle⟩ := h
  refine ⟨hnd.sublist (List.Sublist.map _ (List.filter_sublist reg)), ?_, ?_, ?_⟩
  · exact fun e he => h46 e (List.mem_filter.mp he).1
  · exact fun e1 h1 e2 h2 => hinj e1 (List.mem_filter.mp h1).1 e2 (List.mem_filter.mp h2).1
  · exact fun e he => hidle e (List.mem_filter.mp he).1

/-- `syncState` rebuilds a state satisfying the pool invariant from any
well-formed registry. -/
theorem syncState_inv (dockerNames : List String) {reg : List ContainerRegistryEntry}
    (h : regWF reg) : poolInvariant (syncState dockerNames reg).1 := by
  have h2 : regWF (syncWithDocker reg dockerNames).1 :=
    regWF_filter h (fun e => dockerNames.contains e.containerName)
  exact rebuildFromEntries_inv h2

/-- **C2 (amended).** The in-memory invariant — every container in the
container map is either mapped from its session key or in the warm pool,
never both — is established by `syncState` from a well-formed registry and
preserved by `getContainer` (on success, with a fresh created name), by
`releaseContainer`, by the maintenance tick (with fresh created names), and
by shutdown, each under the pool's well-formedness coupling; the health
tick, however, preserves only the "never both" half: its mark-failed branch
severs the session mapping of a still-running stale container while leaving
the container in the map, so membership in the session map or warm pool can
be lost (see the counterexample). -/
theorem claim_C2_invariant_per_operation :
    (∀ (dockerNames : List String) (reg : List ContainerRegistryEntry),
      regWF reg → poolInvariant (syncState dockerNames reg).1) ∧
    (∀ (cfg : DockerCCPoolConfig) (docker : String → RuntimeState)
      (createResult : Option (String × String)) (now : Int) (st : PoolState)
      (reg : List ContainerRegistryEntry) (p : GetContainerParams)
      (a : ContainerAssignment) (st2 : PoolState) (reg2 : List ContainerRegistryEntry),
      poolWF st reg → poolInvariant st → createFresh createResult st reg →
      getContainer cfg docker createResult now st reg p = Except.ok (a, st2, reg2) →
      poolInvariant st2) ∧
    (∀ (cfg : DockerCCPoolConfig) (now : Int) (st : PoolState)
      (reg : List ContainerRegistryEntry) (sessionKey : String) (returnToPool : Bool),
      poolWF st reg → poolInvariant st →
      poolInvariant (releaseContainer cfg now st reg sessionKey returnToPool).1) ∧
    (∀ (cfg : DockerCCPoolConfig) (docker : String → RuntimeState) (now : Int)
      (st : PoolState) (reg : List ContainerRegistryEntry),
      poolWF st reg → poolAtMostOne (checkHealth cfg docker now st reg).1) ∧
    (∀ (cfg : DockerCCPoolConfig) (creates : Nat → Option (String × String)) (now : Int)
      (st : PoolState) (reg : List ContainerRegistryEntry),
      poolWF st reg → poolInvariant st → createsFresh creates st reg →
      poolInvariant (maintenance cfg creates now st reg).1) ∧
    (∀ (st : PoolState) (reg : List ContainerRegistryEntry),
      poolInvariant (poolShutdown st reg).1) := by
  refine ⟨?_, ?_, ?_, ?_, ?_, ?_⟩
  · exact fun dn reg h => syncState_inv dn h
  · exact fun cfg docker cr now st reg p a st2 reg2 hwf hE hf hok =>
      getContainer_ok_inv hwf hE hf hok
  · exact fun cfg now st reg sk rtp hwf hE => releaseContainer_inv hwf hE
  · exact fun cfg docker now st reg hwf => poolWF_atMostOne (checkHealth_WF hwf)
  · exact fun cfg creates now st reg hwf hE hf => (maintenance_WF_inv hwf hE hf).2
  · exact fun st reg => poolShutdown_inv st reg

/-- Witness for C2 (amended): the health-tick conjunct applied at the
counterexample state — the "never both" half survives the tick there even
though the full invariant does not. -/
theorem claim_C2_invariant_per_operation_witness :
    poolWF
      (⟨[("c", ⟨"cid", "c", some "s", none, ContainerStatus.running, 0, 0, none, 0, ""⟩)],
        [("s", "c")], []⟩ : PoolState)
      [⟨"cid", "c", some "s", none, ContainerStatus.running, 0, 0, none, 0, ""⟩] ∧
    poolAtMostOne
      (checkHealth
        ⟨true, ⟨0, 10, 3⟩, "img", ⟨"4g", 2, 256⟩, ⟨300000, 3600000, 1, 30000⟩,
          ⟨none, "p:"⟩, ⟨"cc-", "net", [], [], none, none⟩⟩
        (fun _ => ⟨true, true⟩) 100
        ⟨[("c", ⟨"cid", "c", some "s", none, ContainerStatus.running, 0, 0, none, 0, ""⟩)],
          [("s", "c")], []⟩
        [⟨"cid", "c", some "s", none, ContainerStatus.running, 0, 0, none, 0, ""⟩]).1 :=
  ⟨by decide,
   claim_C2_invariant_per_operation.2.2.2.1
     ⟨true, ⟨0, 10, 3⟩, "img", ⟨"4g", 2, 256⟩, ⟨300000, 3600000, 1, 30000⟩,
       ⟨none, "p:"⟩, ⟨"cc-", "net", [], [], none, none⟩⟩
     (fun _ => ⟨true, true⟩) 100
     ⟨[("c", ⟨"cid", "c", some "s", none, ContainerStatus.running, 0, 0, none, 0, ""⟩)],
       [("s", "c")], []⟩
     [⟨"cid", "c", some "s", none, ContainerStatus.running, 0, 0, none, 0, ""⟩]
     (by decide)⟩

end DockerCC
